import Mathlib

/-!
Verification of the slow-query-digest pipeline: a shallow embedding of the
fingerprint normalizer (src/fingerprint.rs), the log segmenter and block
parser (src/parser.rs), the aggregation engine (src/aggregator.rs) and the
statistics finalizer (src/report.rs), together with proofs about the
properties stated in the specification.

Text is modelled as `List Char`.  The regex-based passes of `fingerprint`
are embedded as deterministic scanners that implement the leftmost,
greedy-with-backtracking semantics of the five patterns used by the source
(`(?i)use\s+\S+;`, `(?s:/\*.*?\*/)|--[^\n]*`, `'(?:[^']|'')*'`, `\b\d+\b`,
`\s+`).  Character classes (`\s`, `\d`, `\w`, lowercasing) are modelled on
the ASCII range; `f64` values are embedded as exact rationals.  Scanners
that restart after a replaced match are written with a fuel argument
(always instantiated with the input length, which suffices because every
step consumes at least one character) so that they stay structurally
recursive and hence evaluable by the kernel.
-/

/-- Whitespace test used for `\s`, `str::trim` and `char::is_whitespace`,
modelled on the ASCII range: space, tab, newline, carriage return,
vertical tab and form feed. -/
def isWsChar (c : Char) : Bool :=
  c.toNat = 32 || c.toNat = 9 || c.toNat = 10 || c.toNat = 13 ||
    c.toNat = 11 || c.toNat = 12

/-- Decimal-digit test used for the regex class `\d` (ASCII model). -/
def isDigitChar (c : Char) : Bool :=
  48 ≤ c.toNat && c.toNat ≤ 57

/-- Word-character test used for the regex word boundary `\b` (ASCII model:
letters, digits and underscore). -/
def isWordChar (c : Char) : Bool :=
  (48 ≤ c.toNat && c.toNat ≤ 57) || (65 ≤ c.toNat && c.toNat ≤ 90) ||
    (97 ≤ c.toNat && c.toNat ≤ 122) || c.toNat = 95

/-- Step 0 of `fingerprint`, helper: does the text start with the
case-insensitive literal `use`?  (The pattern `(?i)use\s+\S+;` has no word
boundary, so any occurrence of the three letters counts.) -/
def isUseKw : List Char → Bool
  | a :: b :: c :: _ =>
    (a = 'u' || a = 'U') && (b = 's' || b = 'S') && (c = 'e' || c = 'E')
  | _ => false

/-- Splits a list at its LAST semicolon: `some (a, b)` with
`l = a ++ ';' :: b` and no semicolon in `b`.  Used to resolve the greedy
backtracking of `\S+;` inside the `use` pattern. -/
def splitLastSemi : List Char → Option (List Char × List Char)
  | [] => none
  | c :: rest =>
    match splitLastSemi rest with
    | some (a, b) => some (c :: a, b)
    | none => if c = ';' then some ([], rest) else none

/-- After the literal `use`, the pattern `\s+\S+;` must match: at least one
whitespace character (greedily the whole run), then a non-whitespace run
whose prefix up to its last semicolon (which must leave at least one
character before it, since `\S+` needs one) is consumed.  Returns the rest
of the text after the match, or `none` if the pattern fails here. -/
def useAfter (l : List Char) : Option (List Char) :=
  match l with
  | [] => none
  | c :: _ =>
    if isWsChar c then
      let rest := l.dropWhile isWsChar
      let run := rest.takeWhile (fun d => !isWsChar d)
      let tail := rest.drop run.length
      match splitLastSemi run with
      | some (a, b) => if a.isEmpty then none else some (b ++ tail)
      | none => none
    else none

theorem splitLastSemi_eq : ∀ l a b, splitLastSemi l = some (a, b) →
    l = a ++ ';' :: b := by
  intro l
  induction l with
  | nil => intro a b h; simp [splitLastSemi] at h
  | cons c rest ih =>
    intro a b h
    simp only [splitLastSemi] at h
    cases hrec : splitLastSemi rest with
    | some p =>
      rw [hrec] at h
      obtain ⟨a', b'⟩ := p
      simp at h
      obtain ⟨ha, hb⟩ := h
      subst ha; subst hb
      simpa using congrArg (c :: ·) (ih _ _ hrec)
    | none =>
      rw [hrec] at h
      by_cases hc : c = ';'
      · simp [hc] at h
        obtain ⟨ha, hb⟩ := h
        subst ha; subst hb; simp [hc]
      · simp [hc] at h

theorem length_dropWhile_le (p : Char → Bool) (l : List Char) :
    (l.dropWhile p).length ≤ l.length :=
  (List.dropWhile_sublist p).length_le

theorem useAfter_length : ∀ l r, useAfter l = some r → r.length < l.length := by
  intro l r h
  match l with
  | [] => simp [useAfter] at h
  | c :: l' =>
    simp only [useAfter] at h
    by_cases hws : isWsChar c
    · rw [if_pos hws] at h
      set rest := (c :: l').dropWhile isWsChar with hrest
      set run := rest.takeWhile (fun d => !isWsChar d) with hrun
      cases hsplit : splitLastSemi run with
      | some p =>
        obtain ⟨a, b⟩ := p
        rw [hsplit] at h
        by_cases ha : a.isEmpty
        · simp [ha] at h
        · simp only [ha, if_neg, Bool.false_eq_true, not_false_iff] at h
          have hr : r = b ++ rest.drop run.length := by
            simpa using h.symm
          have hshape := splitLastSemi_eq run a b hsplit
          have hlenrun : run.length = a.length + 1 + b.length := by
            rw [hshape]; simp; omega
          have hresteq : run.length + (rest.drop run.length).length = rest.length := by
            simp only [List.length_drop]
            have : run.length ≤ rest.length := (List.takeWhile_sublist _).length_le
            omega
          have hrestle : rest.length ≤ l'.length + 1 := by
            have := length_dropWhile_le isWsChar (c :: l')
            simpa [hrest] using this
          have halen : a.length ≠ 0 := by
            intro h0
            rw [List.isEmpty_iff] at ha
            exact ha (List.length_eq_zero.mp h0)
          have : r.length = b.length + (rest.drop run.length).length := by
            rw [hr]; simp
          simp only [List.length_cons]
          omega
      | none => rw [hsplit] at h; simp at h
    · rw [if_neg hws] at h; simp at h

/-- Step 0 of `fingerprint`, fuelled scanner:
`re_use.replace_all(sql, "")` with `RE_USE = (?i)use\s+\S+;`. -/
def useScanF : Nat → List Char → List Char
  | _, [] => []
  | 0, l => l
  | fuel + 1, c :: rest =>
    if isUseKw (c :: rest) then
      match useAfter ((c :: rest).drop 3) with
      | some r => useScanF fuel r
      | none => c :: useScanF fuel rest
    else c :: useScanF fuel rest

/-- Step 0 of `fingerprint`: removal of `use <db>;` statements. -/
def useScan (l : List Char) : List Char :=
  useScanF l.length l

/-- Helper for the comment pass: consumes the (dotall, lazy) `.*?\*/` part,
dropping everything up to and including the first `*/`; `none` when no
closing `*/` exists, in which case the `/\*` alternative fails. -/
def findClose : List Char → Option (List Char)
  | [] => none
  | c :: rest =>
    match rest with
    | [] => none
    | d :: rest' =>
      if c = '*' && d = '/' then some rest' else findClose rest

theorem findClose_length : ∀ l r, findClose l = some r → r.length < l.length := by
  intro l
  induction l with
  | nil => intro r h; simp [findClose] at h
  | cons c rest ih =>
    intro r h
    cases rest with
    | nil => simp [findClose] at h
    | cons d rest' =>
      simp only [findClose] at h
      by_cases hcd : c = '*' && d = '/'
      · rw [if_pos hcd] at h
        have : r = rest' := by simpa using h.symm
        subst this
        simp only [List.length_cons]
        omega
      · rw [if_neg hcd] at h
        exact Nat.lt_succ_of_lt (ih r h)

/-- Step 1 of `fingerprint`, fuelled scanner:
`re_comment.replace_all(s, "")` with `RE_COMMENT = (?s:/\*.*?\*/)|--[^\n]*`.
At each position the block-comment alternative is tried first (it succeeds
only if a closing `*/` exists), then the line-comment alternative, which
consumes to the end of the line (`[^\n]*`, excluding the newline). -/
def commentScanF : Nat → List Char → List Char
  | _, [] => []
  | 0, l => l
  | fuel + 1, c :: rest =>
    match rest with
    | [] => [c]
    | d :: rest' =>
      if c = '/' && d = '*' then
        match findClose rest' with
        | some r => commentScanF fuel r
        | none => c :: commentScanF fuel rest
      else if c = '-' && d = '-' then
        commentScanF fuel (rest'.dropWhile (fun x => !(x = '\n')))
      else c :: commentScanF fuel rest

/-- Step 1 of `fingerprint`: comment removal. -/
def commentScan (l : List Char) : List Char :=
  commentScanF l.length l

/-- Body of the string-literal pattern `'(?:[^']|'')*'` after its opening
quote, as a deterministic scanner equivalent to the greedy backtracking
search: non-quotes are consumed; at a doubled quote the match greedily
continues, falling back (when the continuation fails) to treating the
first quote of the pair as the closing quote; a single quote closes.
Returns the text after the closing quote, or `none` when the pattern fails
(exactly when no quote remains). -/
def strBody : List Char → Option (List Char)
  | [] => none
  | c :: rest =>
    if c = '\'' then
      match rest with
      | [] => some rest
      | d :: rest' =>
        if d = '\'' then
          match strBody rest' with
          | some r => some r
          | none => some rest
        else some rest
    else strBody rest

theorem strBody_length : ∀ l r, strBody l = some r → r.length < l.length
  | [], r, h => by simp [strBody] at h
  | [c], r, h => by
    by_cases hc : c = '\''
    · subst hc
      simp only [strBody, if_pos] at h
      have : r = [] := by simpa using h.symm
      subst this; simp
    · simp only [strBody, if_neg hc] at h
      simp [strBody] at h
  | c :: d :: rest', r, h => by
    by_cases hc : c = '\''
    · subst hc
      simp only [strBody, if_pos] at h
      by_cases hd : d = '\''
      · rw [if_pos hd] at h
        cases hrec : strBody rest' with
        | some r0 =>
          rw [hrec] at h
          have hlt := strBody_length rest' r0 hrec
          have : r = r0 := by simpa using h.symm
          subst this
          simp only [List.length_cons]
          omega
        | none =>
          rw [hrec] at h
          have : r = d :: rest' := by simpa using h.symm
          subst this
          simp
      · rw [if_neg hd] at h
        have : r = d :: rest' := by simpa using h.symm
        subst this
        simp
    · simp only [strBody, if_neg hc] at h
      have := strBody_length (d :: rest') r h
      simp only [List.length_cons] at this ⊢
      omega

/-- Step 2 of `fingerprint`, fuelled scanner:
`re_string.replace_all(s, "?")` with `RE_STRING = '(?:[^']|'')*'`. -/
def strScanF : Nat → List Char → List Char
  | _, [] => []
  | 0, l => l
  | fuel + 1, c :: rest =>
    if c = '\'' then
      match strBody rest with
      | some r => '?' :: strScanF fuel r
      | none => c :: strScanF fuel rest
    else c :: strScanF fuel rest

/-- Step 2 of `fingerprint`: string literals replaced by `?`. -/
def strScan (l : List Char) : List Char :=
  strScanF l.length l

/-- Right-hand side of the word boundary `\b` after a digit run: the run
matches only if the character that follows it (if any) is a non-word
character. -/
def boundaryOk : List Char → Bool
  | [] => true
  | d :: _ => !isWordChar d

/-- Does the number pattern `\b\d+\b` match at this position, given whether
the previous character was a word character?  Backtracking inside `\d+`
never helps (any shorter run is followed by a digit), so the pattern
matches exactly the full digit run when both boundaries hold. -/
def numTrig (prevWord : Bool) : List Char → Bool
  | c :: rest =>
    isDigitChar c && !prevWord && boundaryOk (rest.dropWhile isDigitChar)
  | [] => false

/-- Step 3 of `fingerprint`, fuelled scanner:
`re_number.replace_all(s, "?")` with `RE_NUMBER = \b\d+\b`.  The `Bool`
argument records whether the previously scanned character was a word
character (string start counts as a non-word position). -/
def numScanF : Nat → Bool → List Char → List Char
  | _, _, [] => []
  | 0, _, l => l
  | fuel + 1, prevWord, c :: rest =>
    if numTrig prevWord (c :: rest) then
      '?' :: numScanF fuel true (rest.dropWhile isDigitChar)
    else
      c :: numScanF fuel (isWordChar c) rest

/-- Step 3 of `fingerprint`: standalone integers replaced by `?`. -/
def numScan (prevWord : Bool) (l : List Char) : List Char :=
  numScanF l.length prevWord l

/-- Step 4 of `fingerprint`, first half, fuelled scanner:
`re_whitespace.replace_all(s, " ")` with `RE_WHITESPACE = \s+`: every
whitespace run collapses to a single space. -/
def collapseF : Nat → List Char → List Char
  | _, [] => []
  | 0, l => l
  | fuel + 1, c :: rest =>
    if isWsChar c then ' ' :: collapseF fuel (rest.dropWhile isWsChar)
    else c :: collapseF fuel rest

/-- Step 4 of `fingerprint`, first half: whitespace runs collapse to one
space. -/
def collapse (l : List Char) : List Char :=
  collapseF l.length l

/-- Removes trailing whitespace (second half of `str::trim`). -/
def trimTrail (l : List Char) : List Char :=
  (l.reverse.dropWhile isWsChar).reverse

/-- Step 4 of `fingerprint`, second half: `str::trim`, removing leading and
trailing whitespace. -/
def trimBoth (l : List Char) : List Char :=
  trimTrail (l.dropWhile isWsChar)

/-- Step 5 of `fingerprint`: `str::to_lowercase`, modelled on the ASCII
range by `Char.toLower` (chars 65–90 map to 97–122, everything else is
fixed). -/
def lowerStr (l : List Char) : List Char :=
  l.map Char.toLower

/-- Generates a fingerprint for a SQL query by normalizing it
(`fingerprint` in `src/fingerprint.rs`): remove `USE` statements, remove
comments, replace string literals with `?`, replace standalone integers
with `?`, collapse whitespace and trim, lowercase. -/
def fingerprint (sql : List Char) : List Char :=
  lowerStr (trimBoth (collapse (numScan false (strScan (commentScan (useScan sql))))))

example : fingerprint "SELECT * FROM users WHERE id = 1".data =
    "select * from users where id = ?".data := by decide

example : fingerprint "SELECT * FROM users WHERE name = 'Alice'".data =
    "select * from users where name = ?".data := by decide

example : fingerprint "SELECT * FROM users WHERE id IN (1, 2, 3)".data =
    "select * from users where id in (?, ?, ?)".data := by decide

example : fingerprint "SELECT * FROM users /* comment */ WHERE id = 1 -- comment".data =
    "select * from users where id = ?".data := by decide

example : fingerprint "use mydb; SELECT * FROM users".data =
    "select * from users".data := by decide

example : fingerprint "USE mydb; SELECT * FROM users".data =
    "select * from users".data := by decide

example : fingerprint "SELECT * FROM users\n WHERE\n name = 'Alice'\n AND age = 17".data =
    "select * from users where name = ? and age = ?".data := by decide

example : fingerprint "us/**/e mydb;".data = "use mydb;".data := by decide

example : fingerprint (fingerprint "us/**/e mydb;".data) = [] := by decide

/-! ## Parser (src/parser.rs) -/

/-- Represents a parsed slow query (`Query` in `src/parser.rs`).  `f64`
fields are embedded as exact rationals, `u64` fields as naturals, and the
chrono timestamp as an abstract integer instant. -/
structure Query where
  query_time : ℚ
  lock_time : ℚ
  rows_sent : ℕ
  rows_examined : ℕ
  timestamp : Option ℤ
  user_host : List Char
  sql_text : List Char
deriving DecidableEq

/-- Splitting into lines (Rust `str::lines`): pieces between `\n`
characters, a trailing newline producing no final empty line.  (The `\r`
stripping of `str::lines` is omitted: every use of a line in the source
first trims it, and `\r` is whitespace.) -/
def linesAux : List Char → List Char → List (List Char)
  | [], cur => if cur.isEmpty then [] else [cur.reverse]
  | c :: rest, cur =>
    if c = '\n' then cur.reverse :: linesAux rest []
    else linesAux rest (c :: cur)

/-- All lines of a block (Rust `block.lines()`). -/
def splitNl (l : List Char) : List (List Char) :=
  linesAux l []

/-- Numeric value of a digit string (helper for the `str::parse` models). -/
def natOfDigits (l : List Char) : ℕ :=
  l.foldl (fun n c => n * 10 + (c.toNat - 48)) 0

/-- Character class `[\d\.]` of the metrics regex. -/
def isNumDotChar (c : Char) : Bool :=
  isDigitChar c || c = '.'

/-- Model of Rust `str::parse::<f64>()` restricted to the `[\d\.]+` texts
the metrics regex can capture: such a text parses successfully exactly
when it has at least one digit and at most one dot, and the parsed value
is embedded as the exact decimal rational. -/
def parseF64 (l : List Char) : Option ℚ :=
  if l.count '.' ≤ 1 && l.any isDigitChar && l.all isNumDotChar then
    let ip := l.takeWhile isDigitChar
    let fp := l.drop (ip.length + 1)
    some ((natOfDigits ip : ℚ) + (natOfDigits fp : ℚ) / ((10 : ℚ) ^ fp.length))
  else none

/-- Model of Rust `str::parse::<u64>()` on a `\d+` capture: fails only on
overflow past `u64::MAX`. -/
def parseU64 (l : List Char) : Option ℕ :=
  if !l.isEmpty && l.all isDigitChar && natOfDigits l < 2 ^ 64 then
    some (natOfDigits l)
  else none

/-- Matches a literal at the start of the text, returning the rest. -/
def matchLit : List Char → List Char → Option (List Char)
  | [], l => some l
  | _ :: _, [] => none
  | c :: p, x :: l => if x = c then matchLit p l else none

def litQT : List Char := "Query_time: ".data

def litLT : List Char := "Lock_time: ".data

def litRS : List Char := "Rows_sent: ".data

def litRE : List Char := "Rows_examined: ".data

/-- Does `RE_HEADER_METRICS` match at this position?
The pattern is
`Query_time: \s*([\d\.]+) \s*Lock_time: \s*([\d\.]+) \s*Rows_sent: \s*(\d+) \s*Rows_examined: \s*(\d+)`;
each greedy capture is followed by a literal space (shortening a capture
never helps, since the next character would be from the same class), and
the four captures are returned. -/
def tryMetricsAt (l : List Char) :
    Option (List Char × List Char × List Char × List Char) := do
  let r1 ← matchLit litQT l
  let r1 := r1.dropWhile isWsChar
  let n1 := r1.takeWhile isNumDotChar
  if n1.isEmpty then none else
  let r2 ← matchLit [' '] (r1.drop n1.length)
  let r2 := r2.dropWhile isWsChar
  let r3 ← matchLit litLT r2
  let r3 := r3.dropWhile isWsChar
  let n2 := r3.takeWhile isNumDotChar
  if n2.isEmpty then none else
  let r4 ← matchLit [' '] (r3.drop n2.length)
  let r4 := r4.dropWhile isWsChar
  let r5 ← matchLit litRS r4
  let r5 := r5.dropWhile isWsChar
  let n3 := r5.takeWhile isDigitChar
  if n3.isEmpty then none else
  let r6 ← matchLit [' '] (r5.drop n3.length)
  let r6 := r6.dropWhile isWsChar
  let r7 ← matchLit litRE r6
  let r7 := r7.dropWhile isWsChar
  let n4 := r7.takeWhile isDigitChar
  if n4.isEmpty then none else
  pure (n1, n2, n3, n4)

/-- Unanchored search for the metrics pattern (`Regex::captures` finds the
leftmost match). -/
def findMetrics : List Char → Option (List Char × List Char × List Char × List Char)
  | [] => none
  | c :: rest =>
    match tryMetricsAt (c :: rest) with
    | some caps => some caps
    | none => findMetrics rest

/-- Modelled from the spec: chrono's `DateTime::parse_from_rfc3339`
followed by conversion to UTC (the chrono crate is external to this
repository).  The spec says only that a standard timestamp parse is
attempted and that malformed values are ignored; this model recognizes the
RFC 3339 shape `YYYY-MM-DDTHH:MM:SS`, an optional fractional part, and a
final `Z` or `±HH:MM` offset, and encodes the instant as the digit string
read as an integer (field-range validation is abstracted away). -/
def parseRfc3339 (l : List Char) : Option ℤ :=
  match l with
  | y1 :: y2 :: y3 :: y4 :: '-' :: m1 :: m2 :: '-' :: d1 :: d2 :: 'T' ::
      h1 :: h2 :: ':' :: mi1 :: mi2 :: ':' :: s1 :: s2 :: rest =>
    if [y1, y2, y3, y4, m1, m2, d1, d2, h1, h2, mi1, mi2, s1, s2].all isDigitChar then
      let base : ℤ := natOfDigits [y1, y2, y3, y4, m1, m2, d1, d2, h1, h2, mi1, mi2, s1, s2]
      let hasFrac := rest.head? = some '.'
      let fracDigits := (rest.drop 1).takeWhile isDigitChar
      let rest2 := if hasFrac then (rest.drop 1).dropWhile isDigitChar else rest
      if hasFrac && fracDigits.isEmpty then none
      else
        match rest2 with
        | ['Z'] => some base
        | [sign, o1, o2, ':', o3, o4] =>
          if (sign = '+' || sign = '-') && [o1, o2, o3, o4].all isDigitChar then
            some base
          else none
        | _ => none
    else none
  | _ => none

def litUserHdr : List Char := "# User@Host: ".data

def litTimeHdr : List Char := "# Time: ".data

def litHash : List Char := ['#']

def litSetTs : List Char := "SET timestamp=".data

/-- Joining with newlines (Rust `Vec::join("\n")`). -/
def joinNl : List (List Char) → List Char
  | [] => []
  | [t] => t
  | t :: rest => t ++ '\n' :: joinNl rest

/-- Accumulator for one pass of `parse_block` over the lines of a block. -/
structure BlockAcc where
  query_time : ℚ
  lock_time : ℚ
  rows_sent : ℕ
  rows_examined : ℕ
  user_host : List Char
  timestamp : Option ℤ
  sql_lines : List (List Char)
deriving DecidableEq

def initAcc : BlockAcc :=
  ⟨0, 0, 0, 0, [], none, []⟩

/-- One line of `parse_block`'s classification loop: user/host header,
timestamp header (set only when the timestamp parses), metrics line
(searched anywhere in the trimmed line; each field degrades to zero if
unparsable), other `#` annotations and `SET timestamp=` directives
(ignored), or a content line (its trimmed text appended to the SQL
lines). -/
def classifyFold (acc : BlockAcc) (line : List Char) : BlockAcc :=
  let t := trimBoth line
  if litUserHdr.isPrefixOf t then
    { acc with user_host := trimBoth (t.drop litUserHdr.length) }
  else if litTimeHdr.isPrefixOf t then
    match parseRfc3339 (t.drop litTimeHdr.length) with
    | some ts => { acc with timestamp := some ts }
    | none => acc
  else
    match findMetrics t with
    | some (n1, n2, n3, n4) =>
      { acc with
        query_time := (parseF64 n1).getD 0
        lock_time := (parseF64 n2).getD 0
        rows_sent := (parseU64 n3).getD 0
        rows_examined := (parseU64 n4).getD 0 }
    | none =>
      if litHash.isPrefixOf t then acc
      else if litSetTs.isPrefixOf t then acc
      else { acc with sql_lines := acc.sql_lines ++ [t] }

/-- Parses a single block of log lines into a `Query`
(`LogParser::parse_block` in `src/parser.rs`). -/
def parse_block (block : List Char) : Option Query :=
  if block.isEmpty then none
  else
    let acc := (splitNl block).foldl classifyFold initAcc
    let sql_text := trimBoth (joinNl acc.sql_lines)
    if sql_text.isEmpty then none
    else
      some { query_time := acc.query_time, lock_time := acc.lock_time,
             rows_sent := acc.rows_sent, rows_examined := acc.rows_examined,
             timestamp := acc.timestamp, user_host := acc.user_host,
             sql_text := sql_text }

/-- Checks if a block contains any SQL statements
(`LogParser::has_sql` in `src/parser.rs`). -/
def has_sql (block : List Char) : Bool :=
  (splitNl block).any (fun line =>
    let t := trimBoth line
    !(litHash.isPrefixOf t) && !(litSetTs.isPrefixOf t) && !t.isEmpty)

def litUserHdr0 : List Char := "# User@Host:".data

def litTimeHdr0 : List Char := "# Time:".data

/-- The boundary heuristic of `LogParser::next`: the freshly read line,
trimmed, starts with `# User@Host:` or `# Time:`. -/
def isBoundaryLine (line : List Char) : Bool :=
  litUserHdr0.isPrefixOf (trimBoth line) || litTimeHdr0.isPrefixOf (trimBoth line)

/-- One call of the iterator `LogParser::next`: reads lines (each modelled
without its terminator; the `\n` that `read_line` keeps is re-appended
when the line is accumulated) until a query is produced or input ends.
Returns the query together with the remaining lines and the new buffer
contents, or `none` at exhaustion. -/
def nextQ : List (List Char) → List Char → Option (Query × List (List Char) × List Char)
  | [], block =>
    if block.isEmpty then none
    else
      match parse_block block with
      | some q => some (q, [], [])
      | none => none
  | line :: rest, block =>
    if isBoundaryLine line && has_sql block then
      match parse_block block with
      | some q => some (q, rest, line ++ ['\n'])
      | none => nextQ rest (line ++ ['\n'])
    else nextQ rest (block ++ line ++ ['\n'])

/-- Fuelled driver that drains the iterator; fuel `lines.length + 1`
always suffices because each `next` call consumes at least one line except
the final end-of-input call. -/
def drainF : Nat → List (List Char) → List Char → List Query
  | 0, _, _ => []
  | fuel + 1, lines, block =>
    match nextQ lines block with
    | none => []
    | some (q, lines', block') => q :: drainF fuel lines' block'

/-- The sequence of queries produced by the iterator from a given state. -/
def drain (lines : List (List Char)) (block : List Char) : List Query :=
  drainF (lines.length + 1) lines block

/-- Parses a slow query log stream (`parse_log` / iterating `LogParser`):
all queries emitted for the given input lines, starting from an empty
buffer. -/
def parse_log (lines : List (List Char)) : List Query :=
  drain lines []

example : (parse_log [
    "# Time: 2023-10-27T10:00:00.123456Z".data,
    "# User@Host: root[root] @ localhost []".data,
    "# Query_time: 0.001234  Lock_time: 0.000123 Rows_sent: 10  Rows_examined: 100".data,
    "SELECT * FROM users;".data]).map
      (fun q => (q.rows_sent, q.rows_examined, q.timestamp, q.user_host, q.sql_text)) =
    [(10, 100, some 20231027100000, "root[root] @ localhost []".data,
      "SELECT * FROM users;".data)] := by decide

example : (parse_log [
    "# Query_time: 0.001234  Lock_time: 0.000123 Rows_sent: 10  Rows_examined: 100".data,
    "SELECT * FROM users;".data]).map Query.query_time =
    [(parseF64 "0.001234".data).getD 0] := rfl

example : (parse_block "SELECT 1;".data).map Query.sql_text = some "SELECT 1;".data := by
  decide

example : (parse_block "SELECT 1;".data).map Query.query_time = some 0 := rfl

example : parse_block "SELECT *\nFROM users\nWHERE id = 1;".data =
    some { query_time := 0, lock_time := 0, rows_sent := 0, rows_examined := 0,
           timestamp := none, user_host := [],
           sql_text := "SELECT *\nFROM users\nWHERE id = 1;".data } := by decide

/-! ## Aggregator (src/aggregator.rs) -/

/-- Aggregated statistics for a specific query fingerprint
(`QueryStats` in `src/aggregator.rs`). -/
structure QueryStats where
  count : ℕ
  total_time : ℚ
  min_time : ℚ
  max_time : ℚ
  total_lock_time : ℚ
  total_rows_sent : ℕ
  total_rows_examined : ℕ
  example_query : List Char
  all_query_times : List ℚ
  first_seen : Option ℤ
  last_seen : Option ℤ
  worst_example_query : List Char
deriving DecidableEq

/-- The exact value of `f64::MAX`, the sentinel used to initialize
`min_time`. -/
def f64MAX : ℚ :=
  ((2 ^ 1024 - 2 ^ 971 : ℕ) : ℚ)

/-- The `Default` instance of `QueryStats`: zero counts and sums,
`min_time = f64::MAX`, `max_time = 0`, empty example texts. -/
def QueryStats.dflt : QueryStats :=
  { count := 0, total_time := 0, min_time := f64MAX, max_time := 0,
    total_lock_time := 0, total_rows_sent := 0, total_rows_examined := 0,
    example_query := [], all_query_times := [], first_seen := none,
    last_seen := none, worst_example_query := [] }

/-- The per-record mutation of the accumulator in `aggregate`'s loop body,
in source order: bump the count and the running sums, lower `min_time` on
a strictly smaller sample, raise `max_time` (and take the worst example)
on a strictly larger sample, append the sample, widen the seen-time range
when a timestamp is present, and set the first-seen example if still
empty. -/
def updateStats (stats : QueryStats) (q : Query) : QueryStats :=
  let s1 := { stats with
    count := stats.count + 1
    total_time := stats.total_time + q.query_time }
  let s2 := if q.query_time < s1.min_time then { s1 with min_time := q.query_time } else s1
  let s3 := if s2.max_time < q.query_time then
      { s2 with max_time := q.query_time, worst_example_query := q.sql_text }
    else s2
  let s4 := { s3 with
    total_lock_time := s3.total_lock_time + q.lock_time
    total_rows_sent := s3.total_rows_sent + q.rows_sent
    total_rows_examined := s3.total_rows_examined + q.rows_examined
    all_query_times := s3.all_query_times ++ [q.query_time] }
  let s5 := match q.timestamp with
    | some ts =>
      let fs := match s4.first_seen with
        | none => some ts
        | some f => if ts < f then some ts else some f
      let ls := match s4.last_seen with
        | none => some ts
        | some f => if f < ts then some ts else some f
      { s4 with first_seen := fs, last_seen := ls }
    | none => s4
  if s5.example_query.isEmpty then { s5 with example_query := q.sql_text } else s5

/-- Lookup in the accumulator map, modelled as an association list. -/
def lookupS : List (List Char × QueryStats) → List Char → Option QueryStats
  | [], _ => none
  | (k, v) :: rest, fp => if k = fp then some v else lookupS rest fp

/-- Write-back into the accumulator map: replace the entry for the key, or
append a new entry. -/
def replaceOrAppend : List (List Char × QueryStats) → List Char → QueryStats →
    List (List Char × QueryStats)
  | [], fp, st => [(fp, st)]
  | (k, v) :: rest, fp, st =>
    if k = fp then (fp, st) :: rest
    else (k, v) :: replaceOrAppend rest fp st

/-- One iteration of `aggregate`'s loop: fingerprint the record, fetch (or
default-create) its accumulator, apply the mutations, store the result.
The `HashMap` is modelled as an insertion-ordered association list; the
claims proved below do not depend on entry order. -/
def aggStep (m : List (List Char × QueryStats)) (q : Query) :
    List (List Char × QueryStats) :=
  let fp := fingerprint q.sql_text
  replaceOrAppend m fp (updateStats ((lookupS m fp).getD QueryStats.dflt) q)

/-- Aggregates a stream of parsed queries into statistics grouped by
fingerprint (`aggregate` in `src/aggregator.rs`; the iterator's
`.flatten()` discards `Err` items, so the input is modelled as the stream
of `Ok` queries). -/
def aggregate (queries : List Query) : List (List Char × QueryStats) :=
  queries.foldl aggStep []

/-- The queries of a stream that fall into the group of fingerprint `fp`. -/
def groupOf (fp : List Char) (queries : List Query) : List Query :=
  queries.filter (fun q => fingerprint q.sql_text = fp)

/-! ## Report finalizer (src/report.rs) -/

/-- Computable ceiling on `ℚ` (the `f64::ceil` of the source; float
arithmetic is embedded as exact rational arithmetic). -/
def ratCeil (q : ℚ) : ℤ :=
  -(Rat.floor (-q))

/-- Nearest-rank percentile (`percentile` in `src/report.rs`): ceiling of
`n * p` as a saturating cast to `usize`, decremented when positive, then
clamped to the last index. -/
def percentile (times : List ℚ) (p : ℚ) : ℚ :=
  if times.isEmpty then 0
  else
    let idx := (ratCeil ((times.length : ℚ) * p)).toNat
    let idx := if idx = 0 then 0 else idx - 1
    times.getD (min idx (times.length - 1)) 0

/-- Modelled from the spec: the `md5` crate's digest of the fingerprint
(`format!("{:x}", md5::compute(&fp))`), which the finalizer uses purely as
a "fingerprint-derived identifier".  The hash computation lives in an
external crate, so it is abstracted as an explicit injective encoding of
the fingerprint. -/
def md5hex (fp : List Char) : List Char :=
  "id:".data ++ fp

/-- Modelled from the spec: chrono's timezone-adjusted
`%Y-%m-%d %H:%M:%S %z` rendering of one instant (the chrono crate is
external to this repository), abstracted as a total rendering of the
offset string and the abstract instant. -/
def formatInstant (tz : List Char) (t : ℤ) : List Char :=
  tz ++ '@' :: (toString t).data

/-- The `time_range` string of a report item: both bounds present renders
the formatted range, otherwise the literal `N/A`. -/
def timeRangeStr (tz : List Char) : Option ℤ → Option ℤ → List Char
  | some a, some b => formatInstant tz a ++ " - ".data ++ formatInstant tz b
  | _, _ => "N/A".data

/-- One row of the final report (`ReportItem` in `src/report.rs`). -/
structure ReportItem where
  rank : ℕ
  query_id : List Char
  count : ℕ
  total_time : ℚ
  mean_time : ℚ
  p95 : ℚ
  p99 : ℚ
  total_lock_time : ℚ
  mean_lock_time : ℚ
  rows_sent : ℕ
  rows_examined : ℕ
  ratio : ℚ
  time_range : List Char
  example_query : List Char
  worst_example_query : List Char
  normalized_query : List Char
deriving DecidableEq

/-- The sort comparator of `prepare_report_items`:
`b.total_time.partial_cmp(&a.total_time).unwrap_or(Equal)`, i.e. `a`
precedes `b` exactly when the comparison is not `Greater`; on `ℚ` (no
NaNs) this is `b.total_time ≤ a.total_time`, giving the descending stable
sort of the source. -/
def totalDesc (a b : List Char × QueryStats) : Bool :=
  b.2.total_time ≤ a.2.total_time

/-- Builds the `ReportItem` for the group at 0-based sorted position `i`:
means guarded by `count > 0`, examined/sent ratio guarded by
`total_rows_sent > 0`, the latency samples sorted ascending, p95/p99 by
nearest rank, `rank = i + 1`.  The float literals `0.95` and `0.99` are
embedded as the decimals they denote. -/
def mkReportItem (tz : List Char) (i : ℕ) (fp : List Char) (stat : QueryStats) :
    ReportItem :=
  let mean := if 0 < stat.count then stat.total_time / (stat.count : ℚ) else 0
  let mean_lock_time :=
    if 0 < stat.count then stat.total_lock_time / (stat.count : ℚ) else 0
  let ratio :=
    if 0 < stat.total_rows_sent then
      (stat.total_rows_examined : ℚ) / (stat.total_rows_sent : ℚ)
    else 0
  let sortedTimes := stat.all_query_times.mergeSort (fun a b => a ≤ b)
  { rank := i + 1, query_id := md5hex fp, count := stat.count,
    total_time := stat.total_time, mean_time := mean,
    p95 := percentile sortedTimes (95 / 100),
    p99 := percentile sortedTimes (99 / 100),
    total_lock_time := stat.total_lock_time, mean_lock_time := mean_lock_time,
    rows_sent := stat.total_rows_sent, rows_examined := stat.total_rows_examined,
    ratio := ratio, time_range := timeRangeStr tz stat.first_seen stat.last_seen,
    example_query := stat.example_query,
    worst_example_query := stat.worst_example_query, normalized_query := fp }

/-- The statistics finalizer (`prepare_report_items` in `src/report.rs`):
sort the groups by descending total time (stable; ties in unspecified
relative order), enumerate, keep the first `limit`, and build the report
items. -/
def prepare_report_items (stats : List (List Char × QueryStats)) (tz : List Char)
    (limit : ℕ) : List ReportItem :=
  let stats_vec := stats.mergeSort totalDesc
  (stats_vec.enum.take limit).map (fun p => mkReportItem tz p.1 p.2.1 p.2.2)

/-! ## Helper lemmas for the percentile function -/

theorem ratCeil_eq (q : ℚ) : ratCeil q = ⌈q⌉ := by
  rw [ratCeil, show Rat.floor (-q) = ⌊-q⌋ from (Rat.floor_def' _).trans Rat.floor_def.symm,
    Int.floor_neg, neg_neg]

theorem percentile_formula (l : List ℚ) (p : ℚ) (hne : l ≠ []) :
    percentile l p = l.getD (min ((⌈(l.length : ℚ) * p⌉ - 1).toNat) (l.length - 1)) 0 := by
  simp only [percentile, List.isEmpty_iff, hne, if_neg, ratCeil_eq]
  rw [if_neg (by simpa [List.isEmpty_iff] using hne)]
  congr 2
  by_cases hk : (⌈(l.length : ℚ) * p⌉).toNat = 0
  · simp only [hk, if_pos]
    omega
  · rw [if_neg hk]
    omega

theorem percentile_one_mem (l : List ℚ) (hne : l ≠ []) :
    percentile l 1 ∈ l := by
  rw [percentile_formula l 1 hne, mul_one, Int.ceil_natCast]
  have hlen : 0 < l.length := List.length_pos.mpr hne
  have hidx : min ((l.length : ℤ) - 1).toNat (l.length - 1) = l.length - 1 := by omega
  rw [hidx, List.getD_eq_getElem _ _ (by omega)]
  exact List.getElem_mem _

theorem percentile_one_max (l : List ℚ) (hne : l ≠ []) (hsort : l.Sorted (· ≤ ·)) :
    ∀ x ∈ l, x ≤ percentile l 1 := by
  intro x hx
  rw [percentile_formula l 1 hne, mul_one, Int.ceil_natCast]
  have hlen : 0 < l.length := List.length_pos.mpr hne
  have hidx : min ((l.length : ℤ) - 1).toNat (l.length - 1) = l.length - 1 := by omega
  rw [hidx]
  obtain ⟨i, rfl⟩ := List.mem_iff_get.mp hx
  rw [List.getD_eq_getElem _ _ (by omega)]
  have h2 := hsort.rel_get_of_le (a := i) (b := ⟨l.length - 1, by omega⟩)
    (by rw [Fin.le_def]; exact (by omega : i.1 ≤ l.length - 1))
  simpa [List.get_eq_getElem] using h2

theorem percentile_singleton (a p : ℚ) : percentile [a] p = a := by
  rw [percentile_formula [a] p (by simp)]
  simp

/-- C4: for every non-empty ascending list of samples, `percentile` returns
the element at zero-based offset `ceil(n * p) - 1`, clamped below at `0`
(via the saturating cast) and above at `n - 1`; in particular
`percentile(samples, 1.0)` is the maximum of the samples, the percentile
of a single-element list is that element for every `p`, and for the ten
samples `0.1, ..., 1.0` the 0.95-percentile is `1.0`. -/
theorem c4_percentile_nearest_rank :
    (∀ (l : List ℚ) (p : ℚ), l ≠ [] → l.Sorted (· ≤ ·) →
      percentile l p =
        l.getD (min ((⌈(l.length : ℚ) * p⌉ - 1).toNat) (l.length - 1)) 0 ∧
      percentile l 1 ∈ l ∧ (∀ x ∈ l, x ≤ percentile l 1)) ∧
    (∀ (a q : ℚ), percentile [a] q = a) ∧
    percentile [1/10, 2/10, 3/10, 4/10, 5/10, 6/10, 7/10, 8/10, 9/10, 1] (95/100) = 1 := by
  refine ⟨fun l p hne hsort => ⟨percentile_formula l p hne,
    percentile_one_mem l hne, percentile_one_max l hne hsort⟩,
    fun a q => percentile_singleton a q, ?_⟩
  rw [percentile_formula _ _ (by simp)]
  have hc : ⌈((([1/10, 2/10, 3/10, 4/10, 5/10, 6/10, 7/10, 8/10, 9/10, 1] :
      List ℚ).length : ℚ)) * (95/100)⌉ = 10 := by
    rw [show ((([1/10, 2/10, 3/10, 4/10, 5/10, 6/10, 7/10, 8/10, 9/10, 1] :
      List ℚ).length : ℚ)) * (95/100) = 19/2 by norm_num]
    exact Int.ceil_eq_iff.mpr (by constructor <;> norm_num)
  rw [hc]
  rw [show min ((10 - 1 : ℤ).toNat)
      (([1/10, 2/10, 3/10, 4/10, 5/10, 6/10, 7/10, 8/10, 9/10, 1] :
        List ℚ).length - 1) = 9 from rfl]
  rfl

/-- C4 witness: the theorem instantiated at the singleton sorted list `[5]`
and `p = 1/2`. -/
theorem c4_witness :
    (([(5 : ℚ)] : List ℚ) ≠ [] ∧ ([(5 : ℚ)] : List ℚ).Sorted (· ≤ ·)) ∧
    (percentile [(5 : ℚ)] (1/2) =
      [(5 : ℚ)].getD
        (min ((⌈((([(5 : ℚ)] : List ℚ).length : ℚ)) * (1/2)⌉ - 1).toNat)
          (([(5 : ℚ)] : List ℚ).length - 1)) 0 ∧
      percentile [(5 : ℚ)] 1 ∈ ([(5 : ℚ)] : List ℚ) ∧
      (∀ x ∈ ([(5 : ℚ)] : List ℚ), x ≤ percentile [(5 : ℚ)] 1)) :=
  ⟨⟨by simp, by simp⟩,
    c4_percentile_nearest_rank.1 [(5 : ℚ)] (1/2) (by simp) (by simp)⟩

/-- C9: the fingerprint of `SELECT * FROM users WHERE id = 1` is
`select * from users where id = ?`, and the integer-replacement pass is
word-boundary delimited, leaving the identifier `col1` untouched. -/
theorem c9_fingerprint_basic :
    fingerprint "SELECT * FROM users WHERE id = 1".data =
      "select * from users where id = ?".data ∧
    numScan false "col1".data = "col1".data := by
  decide

theorem map_enum_take {α β : Type _} (s : List α) (L : ℕ) (f : ℕ × α → β) (g : α → β)
    (hfg : ∀ p : ℕ × α, f p = g p.2) :
    (s.enum.take L).map f = (s.map g).take L := by
  have hfe : f = g ∘ Prod.snd := funext hfg
  calc (s.enum.take L).map f = (s.enum.map f).take L := List.map_take f s.enum L
    _ = ((s.enum.map Prod.snd).map g).take L := by rw [hfe, List.map_map]
    _ = (s.map g).take L := by rw [List.enum_map_snd]

theorem map_enum_take_rank {α : Type _} (s : List α) (L : ℕ) (f : ℕ × α → ℕ)
    (hf : ∀ p : ℕ × α, f p = p.1 + 1) :
    (s.enum.take L).map f = List.range' 1 (min L s.length) := by
  have hfe : f = (fun i => i + 1) ∘ Prod.fst := funext hf
  calc (s.enum.take L).map f = (s.enum.map f).take L := List.map_take f s.enum L
    _ = ((s.enum.map Prod.fst).map (fun i => i + 1)).take L := by
        rw [hfe, List.map_map]
    _ = ((List.range s.length).map (fun i => i + 1)).take L := by rw [List.enum_map_fst]
    _ = ((List.range s.length).take L).map (fun i => i + 1) := (List.map_take _ _ _).symm
    _ = (List.range (min L s.length)).map (fun i => i + 1) := by rw [List.take_range]
    _ = List.range' 1 (min L s.length) := by
        rw [List.range'_eq_map_range]
        exact List.map_congr_left fun x _ => by omega

theorem totalDesc_trans : ∀ a b c, totalDesc a b = true → totalDesc b c = true →
    totalDesc a c = true := by
  intro a b c
  simp only [totalDesc, decide_eq_true_eq]
  intro h1 h2
  exact le_trans h2 h1

theorem totalDesc_total : ∀ a b, (totalDesc a b || totalDesc b a) = true := by
  intro a b
  simp only [totalDesc, Bool.or_eq_true, decide_eq_true_eq]
  exact le_total _ _

/-- C8: for every accumulator map and limit, the finalizer returns exactly
`min(limit, number of groups)` report items, their ranks are `1, 2, ...`
by position, their total times are non-increasing from first to last, and
an empty map yields an empty list (the relative order of groups with equal
totals is left unspecified). -/
theorem c8_finalizer_shape (stats : List (List Char × QueryStats)) (tz : List Char)
    (L : ℕ) :
    (prepare_report_items stats tz L).length = min L stats.length ∧
    (prepare_report_items stats tz L).map ReportItem.rank =
      List.range' 1 (min L stats.length) ∧
    ((prepare_report_items stats tz L).map ReportItem.total_time).Sorted
      (fun a b => b ≤ a) ∧
    prepare_report_items [] tz L = [] := by
  refine ⟨?_, ?_, ?_, ?_⟩
  · simp [prepare_report_items, List.length_take, List.enum_length, List.length_mergeSort]
  · simp only [prepare_report_items, List.map_map]
    rw [map_enum_take_rank (stats.mergeSort totalDesc) L
      (ReportItem.rank ∘ fun p => mkReportItem tz p.1 p.2.1 p.2.2) (fun p => rfl)]
    rw [List.length_mergeSort]
  · simp only [prepare_report_items, List.map_map]
    rw [map_enum_take (stats.mergeSort totalDesc) L
      (ReportItem.total_time ∘ fun p => mkReportItem tz p.1 p.2.1 p.2.2)
      (fun e : List Char × QueryStats => e.2.total_time) (fun p => rfl)]
    apply List.Pairwise.sublist (List.take_sublist _ _)
    exact List.Pairwise.map _
      (fun a b hab => by simpa only [totalDesc, decide_eq_true_eq] using hab)
      (List.sorted_mergeSort totalDesc_trans totalDesc_total stats)
  · simp [prepare_report_items, List.mergeSort_nil]

/-! ## Segmenter lemmas -/

theorem drainF_nil_nil : ∀ f b, b = [] → drainF f [] b = []
  | 0, _, _ => rfl
  | f + 1, b, hb => by subst hb; rfl

theorem nextQ_length : ∀ lines block q lines' block',
    nextQ lines block = some (q, lines', block') →
    lines'.length + 1 ≤ lines.length ∨ (lines' = [] ∧ block' = []) := by
  intro lines
  induction lines with
  | nil =>
    intro block q lines' block' h
    simp only [nextQ] at h
    by_cases hb : block.isEmpty
    · simp [hb] at h
    · rw [if_neg hb] at h
      cases hp : parse_block block with
      | some q0 =>
        rw [hp] at h
        right
        have : q0 = q ∧ ([] : List (List Char)) = lines' ∧ ([] : List Char) = block' := by
          simpa using h
        exact ⟨this.2.1.symm, this.2.2.symm⟩
      | none => rw [hp] at h; simp at h
  | cons l rest ih =>
    intro block q lines' block' h
    simp only [nextQ] at h
    by_cases hc : isBoundaryLine l && has_sql block
    · rw [if_pos hc] at h
      cases hp : parse_block block with
      | some q0 =>
        rw [hp] at h
        have : q0 = q ∧ rest = lines' ∧ l ++ ['\n'] = block' := by simpa using h
        left
        rw [← this.2.1]
        simp
      | none =>
        rw [hp] at h
        rcases ih _ _ _ _ h with h1 | h2
        · left; simp only [List.length_cons]; omega
        · right; exact h2
    · rw [if_neg hc] at h
      rcases ih _ _ _ _ h with h1 | h2
      · left; simp only [List.length_cons]; omega
      · right; exact h2

theorem drainF_fuel : ∀ fuel lines block, lines.length + 1 ≤ fuel →
    drainF fuel lines block = drainF (lines.length + 1) lines block := by
  intro fuel
  induction fuel using Nat.strong_induction_on with
  | _ fuel ih =>
    intro lines block hle
    match fuel, hle with
    | f + 1, hle =>
      simp only [drainF]
      cases hq : nextQ lines block with
      | none => rfl
      | some t =>
        obtain ⟨q, lines', block'⟩ := t
        dsimp only
        rcases nextQ_length lines block q lines' block' hq with h1 | h2
        · have e1 : drainF f lines' block' = drainF (lines'.length + 1) lines' block' :=
            ih f (by omega) lines' block' (by omega)
          have e2 : drainF lines.length lines' block' =
              drainF (lines'.length + 1) lines' block' := by
            rcases Nat.eq_or_lt_of_le hle with he | hlt
            · rw [show lines.length = f from by omega] at h1 ⊢
              exact ih f (by omega) lines' block' (by omega)
            · exact ih lines.length (by omega) lines' block' (by omega)
          rw [e1, e2]
        · obtain ⟨h2a, h2b⟩ := h2
          subst h2a
          rw [drainF_nil_nil f block' h2b, drainF_nil_nil lines.length block' h2b]

theorem drain_eq (lines : List (List Char)) (block : List Char) :
    drain lines block =
      match nextQ lines block with
      | none => []
      | some (q, lines', block') => q :: drain lines' block' := by
  show drainF (lines.length + 1) lines block = _
  simp only [drainF]
  cases hq : nextQ lines block with
  | none => rfl
  | some t =>
    obtain ⟨q, lines', block'⟩ := t
    show q :: drainF lines.length lines' block' = q :: drain lines' block'
    congr 1
    rcases nextQ_length lines block q lines' block' hq with h1 | h2
    · exact drainF_fuel lines.length lines' block' (by omega)
    · obtain ⟨h2a, h2b⟩ := h2
      subst h2a
      rw [drainF_nil_nil lines.length block' h2b]
      exact (drainF_nil_nil (0 + 1) block' h2b).symm

/-- C3: the segmenter's per-line behaviour.  When the next line is a
boundary marker (`# User@Host:` or `# Time:` on the trimmed line) and the
accumulated block already has SQL content, the block — excluding the
boundary line — is parsed and emitted (when it yields a record) and the
buffer restarts with exactly the boundary line; otherwise the line is
appended to the block; at end of input the remaining buffer is parsed and
emitted the same way (an empty buffer yields nothing). -/
theorem c3_segmenter_step (line : List Char) (lines : List (List Char))
    (block : List Char) :
    (isBoundaryLine line = true → has_sql block = true →
      drain (line :: lines) block =
        (parse_block block).toList ++ drain lines (line ++ ['\n'])) ∧
    ((isBoundaryLine line && has_sql block) = false →
      drain (line :: lines) block = drain lines (block ++ line ++ ['\n'])) ∧
    drain [] block = (parse_block block).toList := by
  refine ⟨?_, ?_, ?_⟩
  · intro hb hs
    rw [drain_eq]
    simp only [nextQ, hb, hs, Bool.and_self, if_pos]
    cases hp : parse_block block with
    | some q => simp
    | none =>
      dsimp only
      simp only [Option.toList, List.nil_append]
      exact (drain_eq lines (line ++ ['\n'])).symm
  · intro hc
    rw [drain_eq]
    simp only [nextQ, hc]
    rw [if_neg (by simp [hc])]
    exact (drain_eq lines (block ++ line ++ ['\n'])).symm
  · rw [drain_eq]
    simp only [nextQ]
    by_cases hb : block.isEmpty
    · rw [if_pos hb]
      have : block = [] := by simpa [List.isEmpty_iff] using hb
      subst this
      rw [show parse_block [] = none from rfl]
      rfl
    · rw [if_neg hb]
      cases hp : parse_block block with
      | some q =>
        dsimp only
        rw [show drain [] [] = [] from rfl]
        rfl
      | none => rfl

/-- C3 witness: one boundary line read on top of a buffer holding one SQL
line. -/
theorem c3_witness :
    (isBoundaryLine "# Time: t".data = true ∧ has_sql "SELECT 1\n".data = true) ∧
    drain ["# Time: t".data] "SELECT 1\n".data =
      (parse_block "SELECT 1\n".data).toList ++
        drain [] ("# Time: t".data ++ ['\n']) :=
  ⟨⟨by decide, by decide⟩,
    (c3_segmenter_step "# Time: t".data [] "SELECT 1\n".data).1 (by decide) (by decide)⟩

/-! ## Block-parsing lemmas -/

/-- A (trimmed) line is classified as content exactly when it is none of:
user/host header, time header, metrics line, other annotation, directive. -/
def isContentLine (t : List Char) : Bool :=
  !(litUserHdr.isPrefixOf t) && !(litTimeHdr.isPrefixOf t) &&
    (findMetrics t).isNone && !(litHash.isPrefixOf t) && !(litSetTs.isPrefixOf t)

theorem classifyFold_sql (acc : BlockAcc) (l : List Char) :
    (classifyFold acc l).sql_lines =
      acc.sql_lines ++ (if isContentLine (trimBoth l) then [trimBoth l] else []) := by
  by_cases h1 : litUserHdr.isPrefixOf (trimBoth l)
  · simp [classifyFold, isContentLine, h1]
  · by_cases h2 : litTimeHdr.isPrefixOf (trimBoth l)
    · cases hp : parseRfc3339 ((trimBoth l).drop litTimeHdr.length) <;>
        simp [classifyFold, isContentLine, h1, h2, hp]
    · cases hm : findMetrics (trimBoth l) with
      | some caps =>
        obtain ⟨n1, n2, n3, n4⟩ := caps
        simp [classifyFold, isContentLine, h1, h2, hm]
      | none =>
        by_cases h4 : litHash.isPrefixOf (trimBoth l)
        · simp [classifyFold, isContentLine, h1, h2, hm, h4]
        · by_cases h5 : litSetTs.isPrefixOf (trimBoth l)
          · simp [classifyFold, isContentLine, h1, h2, hm, h4, h5]
          · simp [classifyFold, isContentLine, h1, h2, hm, h4, h5]

theorem classifyFold_qt (acc : BlockAcc) (l : List Char)
    (h : ∀ n1 n2 n3 n4, findMetrics (trimBoth l) = some (n1, n2, n3, n4) →
      parseF64 n1 = none)
    (h0 : acc.query_time = 0) : (classifyFold acc l).query_time = 0 := by
  by_cases h1 : litUserHdr.isPrefixOf (trimBoth l)
  · simpa [classifyFold, h1] using h0
  · by_cases h2 : litTimeHdr.isPrefixOf (trimBoth l)
    · cases hp : parseRfc3339 ((trimBoth l).drop litTimeHdr.length) <;>
        simpa [classifyFold, h1, h2, hp] using h0
    · cases hm : findMetrics (trimBoth l) with
      | some caps =>
        obtain ⟨n1, n2, n3, n4⟩ := caps
        simp [classifyFold, h1, h2, hm, h n1 n2 n3 n4 hm]
      | none =>
        by_cases h4 : litHash.isPrefixOf (trimBoth l)
        · simpa [classifyFold, h1, h2, hm, h4] using h0
        · by_cases h5 : litSetTs.isPrefixOf (trimBoth l)
          · simpa [classifyFold, h1, h2, hm, h4, h5] using h0
          · simpa [classifyFold, h1, h2, hm, h4, h5] using h0

theorem classifyFold_lt (acc : BlockAcc) (l : List Char)
    (h : ∀ n1 n2 n3 n4, findMetrics (trimBoth l) = some (n1, n2, n3, n4) →
      parseF64 n2 = none)
    (h0 : acc.lock_time = 0) : (classifyFold acc l).lock_time = 0 := by
  by_cases h1 : litUserHdr.isPrefixOf (trimBoth l)
  · simpa [classifyFold, h1] using h0
  · by_cases h2 : litTimeHdr.isPrefixOf (trimBoth l)
    · cases hp : parseRfc3339 ((trimBoth l).drop litTimeHdr.length) <;>
        simpa [classifyFold, h1, h2, hp] using h0
    · cases hm : findMetrics (trimBoth l) with
      | some caps =>
        obtain ⟨n1, n2, n3, n4⟩ := caps
        simp [classifyFold, h1, h2, hm, h n1 n2 n3 n4 hm]
      | none =>
        by_cases h4 : litHash.isPrefixOf (trimBoth l)
        · simpa [classifyFold, h1, h2, hm, h4] using h0
        · by_cases h5 : litSetTs.isPrefixOf (trimBoth l)
          · simpa [classifyFold, h1, h2, hm, h4, h5] using h0
          · simpa [classifyFold, h1, h2, hm, h4, h5] using h0

theorem classifyFold_rs (acc : BlockAcc) (l : List Char)
    (h : ∀ n1 n2 n3 n4, findMetrics (trimBoth l) = some (n1, n2, n3, n4) →
      parseU64 n3 = none)
    (h0 : acc.rows_sent = 0) : (classifyFold acc l).rows_sent = 0 := by
  by_cases h1 : litUserHdr.isPrefixOf (trimBoth l)
  · simpa [classifyFold, h1] using h0
  · by_cases h2 : litTimeHdr.isPrefixOf (trimBoth l)
    · cases hp : parseRfc3339 ((trimBoth l).drop litTimeHdr.length) <;>
        simpa [classifyFold, h1, h2, hp] using h0
    · cases hm : findMetrics (trimBoth l) with
      | some caps =>
        obtain ⟨n1, n2, n3, n4⟩ := caps
        simp [classifyFold, h1, h2, hm, h n1 n2 n3 n4 hm]
      | none =>
        by_cases h4 : litHash.isPrefixOf (trimBoth l)
        · simpa [classifyFold, h1, h2, hm, h4] using h0
        · by_cases h5 : litSetTs.isPrefixOf (trimBoth l)
          · simpa [classifyFold, h1, h2, hm, h4, h5] using h0
          · simpa [classifyFold, h1, h2, hm, h4, h5] using h0

theorem classifyFold_re (acc : BlockAcc) (l : List Char)
    (h : ∀ n1 n2 n3 n4, findMetrics (trimBoth l) = some (n1, n2, n3, n4) →
      parseU64 n4 = none)
    (h0 : acc.rows_examined = 0) : (classifyFold acc l).rows_examined = 0 := by
  by_cases h1 : litUserHdr.isPrefixOf (trimBoth l)
  · simpa [classifyFold, h1] using h0
  · by_cases h2 : litTimeHdr.isPrefixOf (trimBoth l)
    · cases hp : parseRfc3339 ((trimBoth l).drop litTimeHdr.length) <;>
        simpa [classifyFold, h1, h2, hp] using h0
    · cases hm : findMetrics (trimBoth l) with
      | some caps =>
        obtain ⟨n1, n2, n3, n4⟩ := caps
        simp [classifyFold, h1, h2, hm, h n1 n2 n3 n4 hm]
      | none =>
        by_cases h4 : litHash.isPrefixOf (trimBoth l)
        · simpa [classifyFold, h1, h2, hm, h4] using h0
        · by_cases h5 : litSetTs.isPrefixOf (trimBoth l)
          · simpa [classifyFold, h1, h2, hm, h4, h5] using h0
          · simpa [classifyFold, h1, h2, hm, h4, h5] using h0

theorem classifyFold_ts (acc : BlockAcc) (l : List Char)
    (h : litTimeHdr.isPrefixOf (trimBoth l) = true →
      parseRfc3339 ((trimBoth l).drop litTimeHdr.length) = none)
    (h0 : acc.timestamp = none) : (classifyFold acc l).timestamp = none := by
  by_cases h1 : litUserHdr.isPrefixOf (trimBoth l)
  · simpa [classifyFold, h1] using h0
  · by_cases h2 : litTimeHdr.isPrefixOf (trimBoth l)
    · simpa [classifyFold, h1, h2, h h2] using h0
    · cases hm : findMetrics (trimBoth l) with
      | some caps =>
        obtain ⟨n1, n2, n3, n4⟩ := caps
        simpa [classifyFold, h1, h2, hm] using h0
      | none =>
        by_cases h4 : litHash.isPrefixOf (trimBoth l)
        · simpa [classifyFold, h1, h2, hm, h4] using h0
        · by_cases h5 : litSetTs.isPrefixOf (trimBoth l)
          · simpa [classifyFold, h1, h2, hm, h4, h5] using h0
          · simpa [classifyFold, h1, h2, hm, h4, h5] using h0

theorem foldl_classify_sql : ∀ (ls : List (List Char)) (acc : BlockAcc),
    (ls.foldl classifyFold acc).sql_lines =
      acc.sql_lines ++ (ls.map trimBoth).filter isContentLine := by
  intro ls
  induction ls with
  | nil => intro acc; simp
  | cons l rest ih =>
    intro acc
    simp only [List.foldl_cons, List.map_cons, List.filter_cons]
    rw [ih (classifyFold acc l), classifyFold_sql]
    by_cases hc : isContentLine (trimBoth l)
    · simp [hc]
    · simp [hc]

theorem foldl_classify_qt : ∀ (ls : List (List Char)) (acc : BlockAcc),
    (∀ l ∈ ls, ∀ n1 n2 n3 n4, findMetrics (trimBoth l) = some (n1, n2, n3, n4) →
      parseF64 n1 = none) →
    acc.query_time = 0 → (ls.foldl classifyFold acc).query_time = 0 := by
  intro ls
  induction ls with
  | nil => intro acc _ h0; simpa using h0
  | cons l rest ih =>
    intro acc h h0
    simp only [List.foldl_cons]
    exact ih (classifyFold acc l) (fun x hx => h x (List.mem_cons_of_mem l hx))
      (classifyFold_qt acc l (h l (List.mem_cons_self l rest)) h0)

theorem foldl_classify_lt : ∀ (ls : List (List Char)) (acc : BlockAcc),
    (∀ l ∈ ls, ∀ n1 n2 n3 n4, findMetrics (trimBoth l) = some (n1, n2, n3, n4) →
      parseF64 n2 = none) →
    acc.lock_time = 0 → (ls.foldl classifyFold acc).lock_time = 0 := by
  intro ls
  induction ls with
  | nil => intro acc _ h0; simpa using h0
  | cons l rest ih =>
    intro acc h h0
    simp only [List.foldl_cons]
    exact ih (classifyFold acc l) (fun x hx => h x (List.mem_cons_of_mem l hx))
      (classifyFold_lt acc l (h l (List.mem_cons_self l rest)) h0)

theorem foldl_classify_rs : ∀ (ls : List (List Char)) (acc : BlockAcc),
    (∀ l ∈ ls, ∀ n1 n2 n3 n4, findMetrics (trimBoth l) = some (n1, n2, n3, n4) →
      parseU64 n3 = none) →
    acc.rows_sent = 0 → (ls.foldl classifyFold acc).rows_sent = 0 := by
  intro ls
  induction ls with
  | nil => intro acc _ h0; simpa using h0
  | cons l rest ih =>
    intro acc h h0
    simp only [List.foldl_cons]
    exact ih (classifyFold acc l) (fun x hx => h x (List.mem_cons_of_mem l hx))
      (classifyFold_rs acc l (h l (List.mem_cons_self l rest)) h0)

theorem foldl_classify_re : ∀ (ls : List (List Char)) (acc : BlockAcc),
    (∀ l ∈ ls, ∀ n1 n2 n3 n4, findMetrics (trimBoth l) = some (n1, n2, n3, n4) →
      parseU64 n4 = none) →
    acc.rows_examined = 0 → (ls.foldl classifyFold acc).rows_examined = 0 := by
  intro ls
  induction ls with
  | nil => intro acc _ h0; simpa using h0
  | cons l rest ih =>
    intro acc h h0
    simp only [List.foldl_cons]
    exact ih (classifyFold acc l) (fun x hx => h x (List.mem_cons_of_mem l hx))
      (classifyFold_re acc l (h l (List.mem_cons_self l rest)) h0)

theorem foldl_classify_ts : ∀ (ls : List (List Char)) (acc : BlockAcc),
    (∀ l ∈ ls, litTimeHdr.isPrefixOf (trimBoth l) = true →
      parseRfc3339 ((trimBoth l).drop litTimeHdr.length) = none) →
    acc.timestamp = none → (ls.foldl classifyFold acc).timestamp = none := by
  intro ls
  induction ls with
  | nil => intro acc _ h0; simpa using h0
  | cons l rest ih =>
    intro acc h h0
    simp only [List.foldl_cons]
    exact ih (classifyFold acc l) (fun x hx => h x (List.mem_cons_of_mem l hx))
      (classifyFold_ts acc l (h l (List.mem_cons_self l rest)) h0)

theorem trimTrail_eq_nil_iff (l : List Char) :
    trimTrail l = [] ↔ l.all isWsChar = true := by
  rw [trimTrail, List.reverse_eq_nil_iff, List.dropWhile_eq_nil_iff, List.all_eq_true]
  constructor
  · intro h x hx
    exact h x (List.mem_reverse.mpr hx)
  · intro h x hx
    exact h x (List.mem_reverse.mp hx)

theorem all_dropWhile (p : Char → Bool) (l : List Char) :
    (l.dropWhile p).all p = l.all p := by
  induction l with
  | nil => rfl
  | cons c rest ih =>
    by_cases hc : p c
    · simp [List.dropWhile_cons, hc, ih]
    · simp [List.dropWhile_cons, hc]

theorem trimBoth_eq_nil_iff (l : List Char) :
    trimBoth l = [] ↔ l.all isWsChar = true := by
  rw [trimBoth, trimTrail_eq_nil_iff, all_dropWhile]

theorem trimTrail_isPrefix (l : List Char) : trimTrail l <+: l := by
  rw [trimTrail, ← List.reverse_reverse l]
  rw [List.reverse_prefix]
  rw [List.reverse_reverse l]
  exact List.dropWhile_suffix isWsChar

theorem dropWhile_head_false (p : Char → Bool) : ∀ (l : List Char) (x : Char)
    (xs : List Char), l.dropWhile p = x :: xs → p x = false := by
  intro l
  induction l with
  | nil => intro x xs h; simp at h
  | cons c rest ih =>
    intro x xs h
    by_cases hc : p c
    · rw [List.dropWhile_cons, if_pos hc] at h
      exact ih x xs h
    · rw [List.dropWhile_cons, if_neg hc] at h
      have hcx : c = x := (List.cons_eq_cons.mp h).1
      rw [← hcx]
      exact eq_false_of_ne_true hc

theorem all_trimBoth (l : List Char) :
    (trimBoth l).all isWsChar = l.all isWsChar := by
  by_cases h : l.all isWsChar
  · rw [h, (trimBoth_eq_nil_iff l).mpr h]
    rfl
  · rw [eq_false_of_ne_true h]
    cases hmarch : trimBoth l with
    | nil => exact absurd ((trimBoth_eq_nil_iff l).mp hmarch) h
    | cons x xs =>
      have hu : l.dropWhile isWsChar ≠ [] := by
        intro hnil
        exact h (List.all_eq_true.mpr (List.dropWhile_eq_nil_iff.mp hnil))
      have hp : trimBoth l <+: l.dropWhile isWsChar := trimTrail_isPrefix _
      obtain ⟨t, ht⟩ := hp
      rw [hmarch] at ht
      have hxw : isWsChar x = false :=
        dropWhile_head_false isWsChar l x (xs ++ t) ht.symm
      simp [hxw]

theorem joinNl_all_ws : ∀ ls : List (List Char),
    (joinNl ls).all isWsChar = ls.all (fun t => t.all isWsChar)
  | [] => rfl
  | [t] => by simp [joinNl]
  | t :: u :: rest => by
    rw [show joinNl (t :: u :: rest) = t ++ '\n' :: joinNl (u :: rest) from rfl]
    rw [List.all_append]
    rw [show (('\n' :: joinNl (u :: rest)).all isWsChar) =
      (isWsChar '\n' && (joinNl (u :: rest)).all isWsChar) from rfl]
    rw [joinNl_all_ws (u :: rest)]
    simp [isWsChar]

theorem trim_join_filter_iff (L : List (List Char)) :
    trimBoth (joinNl ((L.map trimBoth).filter isContentLine)) = [] ↔
      trimBoth (joinNl (L.filter (fun l => isContentLine (trimBoth l)))) = [] := by
  rw [trimBoth_eq_nil_iff, trimBoth_eq_nil_iff, joinNl_all_ws, joinNl_all_ws]
  rw [List.filter_map, List.all_map]
  rw [List.all_eq_true, List.all_eq_true]
  constructor
  · intro h x hx
    have h2 := h x hx
    simp only [Function.comp] at h2
    rw [← all_trimBoth]
    exact h2
  · intro h x hx
    simp only [Function.comp]
    rw [all_trimBoth]
    exact h x hx

/-- Every field of a successfully parsed block, expressed through the
classification fold and the filtered content lines. -/
theorem parse_block_some (block : List Char) (q : Query)
    (h : parse_block block = some q) :
    q.query_time = ((splitNl block).foldl classifyFold initAcc).query_time ∧
    q.timestamp = ((splitNl block).foldl classifyFold initAcc).timestamp ∧
    q.sql_text =
      trimBoth (joinNl (((splitNl block).map trimBoth).filter isContentLine)) := by
  rw [parse_block] at h
  by_cases hb : block.isEmpty
  · simp [hb] at h
  · rw [if_neg hb] at h
    by_cases hs : (trimBoth (joinNl ((splitNl block).foldl classifyFold initAcc).sql_lines)).isEmpty
    · rw [if_pos hs] at h
      exact absurd h (by simp)
    · rw [if_neg hs] at h
      have hq : q = ⟨((splitNl block).foldl classifyFold initAcc).query_time,
          ((splitNl block).foldl classifyFold initAcc).lock_time,
          ((splitNl block).foldl classifyFold initAcc).rows_sent,
          ((splitNl block).foldl classifyFold initAcc).rows_examined,
          ((splitNl block).foldl classifyFold initAcc).timestamp,
          ((splitNl block).foldl classifyFold initAcc).user_host,
          trimBoth (joinNl ((splitNl block).foldl classifyFold initAcc).sql_lines)⟩ := by
        simpa using h.symm
      subst hq
      refine ⟨rfl, rfl, ?_⟩
      rw [foldl_classify_sql]
      rfl

/-- The remaining three numeric fields of a successfully parsed block,
expressed through the classification fold. -/
theorem parse_block_some_metrics (block : List Char) (q : Query)
    (h : parse_block block = some q) :
    q.lock_time = ((splitNl block).foldl classifyFold initAcc).lock_time ∧
    q.rows_sent = ((splitNl block).foldl classifyFold initAcc).rows_sent ∧
    q.rows_examined = ((splitNl block).foldl classifyFold initAcc).rows_examined := by
  rw [parse_block] at h
  by_cases hb : block.isEmpty
  · simp [hb] at h
  · rw [if_neg hb] at h
    by_cases hs : (trimBoth (joinNl
        ((splitNl block).foldl classifyFold initAcc).sql_lines)).isEmpty
    · rw [if_pos hs] at h
      exact absurd h (by simp)
    · rw [if_neg hs] at h
      have hq : q = ⟨((splitNl block).foldl classifyFold initAcc).query_time,
          ((splitNl block).foldl classifyFold initAcc).lock_time,
          ((splitNl block).foldl classifyFold initAcc).rows_sent,
          ((splitNl block).foldl classifyFold initAcc).rows_examined,
          ((splitNl block).foldl classifyFold initAcc).timestamp,
          ((splitNl block).foldl classifyFold initAcc).user_host,
          trimBoth (joinNl ((splitNl block).foldl classifyFold initAcc).sql_lines)⟩ := by
        simpa using h.symm
      subst hq
      exact ⟨rfl, rfl, rfl⟩

/-- C5: `parse_block` is total and never rejects a block outright: it
returns `none` exactly when the block's SQL body — the content lines
joined and trimmed — is empty; each of the four numeric metric fields
(`query_time`, `lock_time`, `rows_sent`, `rows_examined`) is `0` whenever
its capture on every metrics line is missing or unparsable (in particular
all four are `0` for a block with an SQL body but no metrics line at all);
and whenever every timestamp line's payload is malformed the record's
timestamp is left absent. -/
theorem c5_parse_block_robust (block : List Char) :
    (parse_block block = none ↔
      trimBoth (joinNl ((splitNl block).filter
        (fun l => isContentLine (trimBoth l)))) = []) ∧
    ((∀ l ∈ splitNl block, ∀ n1 n2 n3 n4,
        findMetrics (trimBoth l) = some (n1, n2, n3, n4) → parseF64 n1 = none) →
      ∀ q, parse_block block = some q → q.query_time = 0) ∧
    ((∀ l ∈ splitNl block, ∀ n1 n2 n3 n4,
        findMetrics (trimBoth l) = some (n1, n2, n3, n4) → parseF64 n2 = none) →
      ∀ q, parse_block block = some q → q.lock_time = 0) ∧
    ((∀ l ∈ splitNl block, ∀ n1 n2 n3 n4,
        findMetrics (trimBoth l) = some (n1, n2, n3, n4) → parseU64 n3 = none) →
      ∀ q, parse_block block = some q → q.rows_sent = 0) ∧
    ((∀ l ∈ splitNl block, ∀ n1 n2 n3 n4,
        findMetrics (trimBoth l) = some (n1, n2, n3, n4) → parseU64 n4 = none) →
      ∀ q, parse_block block = some q → q.rows_examined = 0) ∧
    ((∀ l ∈ splitNl block, litTimeHdr.isPrefixOf (trimBoth l) = true →
        parseRfc3339 ((trimBoth l).drop litTimeHdr.length) = none) →
      ∀ q, parse_block block = some q → q.timestamp = none) := by
  refine ⟨?_, ?_, ?_, ?_, ?_, ?_⟩
  · rw [← trim_join_filter_iff]
    by_cases hb : block.isEmpty
    · have hblock : block = [] := List.isEmpty_iff.mp hb
      subst hblock
      simp [parse_block, splitNl, linesAux, joinNl, trimBoth, trimTrail]
    · simp only [parse_block, if_neg hb, foldl_classify_sql, initAcc, List.nil_append]
      by_cases he : (trimBoth (joinNl
          (((splitNl block).map trimBoth).filter isContentLine))).isEmpty
      · rw [if_pos he]
        simp [List.isEmpty_iff.mp he]
      · rw [if_neg he]
        simp [List.isEmpty_iff] at he
        simp [he]
  · intro hyp q hq
    rw [(parse_block_some block q hq).1]
    exact foldl_classify_qt (splitNl block) initAcc hyp rfl
  · intro hyp q hq
    rw [(parse_block_some_metrics block q hq).1]
    exact foldl_classify_lt (splitNl block) initAcc hyp rfl
  · intro hyp q hq
    rw [(parse_block_some_metrics block q hq).2.1]
    exact foldl_classify_rs (splitNl block) initAcc hyp rfl
  · intro hyp q hq
    rw [(parse_block_some_metrics block q hq).2.2]
    exact foldl_classify_re (splitNl block) initAcc hyp rfl
  · intro hyp q hq
    rw [(parse_block_some block q hq).2.1]
    exact foldl_classify_ts (splitNl block) initAcc hyp rfl

/-- C5 witness: a one-line block with SQL body and no metrics line; all
four numeric metric fields of the parsed record are zero. -/
theorem c5_witness :
    (∀ l ∈ splitNl "SELECT 1;".data, findMetrics (trimBoth l) = none) ∧
    (⟨0, 0, 0, 0, none, [], "SELECT 1;".data⟩ : Query).query_time = 0 ∧
    (⟨0, 0, 0, 0, none, [], "SELECT 1;".data⟩ : Query).lock_time = 0 ∧
    (⟨0, 0, 0, 0, none, [], "SELECT 1;".data⟩ : Query).rows_sent = 0 ∧
    (⟨0, 0, 0, 0, none, [], "SELECT 1;".data⟩ : Query).rows_examined = 0 := by
  have hno : ∀ l ∈ splitNl "SELECT 1;".data, findMetrics (trimBoth l) = none := by
    intro l hl
    rw [show splitNl "SELECT 1;".data = ["SELECT 1;".data] from by decide] at hl
    simp at hl
    subst hl
    decide
  have hq : parse_block "SELECT 1;".data =
      some ⟨0, 0, 0, 0, none, [], "SELECT 1;".data⟩ := rfl
  refine ⟨hno, ?_, ?_, ?_, ?_⟩
  · exact (c5_parse_block_robust "SELECT 1;".data).2.1
      (fun l hl n1 n2 n3 n4 hm => absurd hm (by rw [hno l hl]; simp)) _ hq
  · exact (c5_parse_block_robust "SELECT 1;".data).2.2.1
      (fun l hl n1 n2 n3 n4 hm => absurd hm (by rw [hno l hl]; simp)) _ hq
  · exact (c5_parse_block_robust "SELECT 1;".data).2.2.2.1
      (fun l hl n1 n2 n3 n4 hm => absurd hm (by rw [hno l hl]; simp)) _ hq
  · exact (c5_parse_block_robust "SELECT 1;".data).2.2.2.2.1
      (fun l hl n1 n2 n3 n4 hm => absurd hm (by rw [hno l hl]; simp)) _ hq

/-- The specification's description of the SQL body of C7: the raw content
lines (classified on their trimmed form) preserved verbatim, joined with
newlines, and trimmed only at the start and end of the whole body. -/
def sqlTextVerbatim (block : List Char) : List Char :=
  trimBoth (joinNl ((splitNl block).filter (fun l => isContentLine (trimBoth l))))

/-- C7 counterexample: on the two-line block `SELECT 1\n  FROM t` the
parser trims each content line individually, so the produced `sql_text`
drops the interior indentation and differs from the verbatim body the
claim describes. -/
theorem c7_counterexample :
    (parse_block "SELECT 1\n  FROM t".data).map Query.sql_text =
      some "SELECT 1\nFROM t".data ∧
    sqlTextVerbatim "SELECT 1\n  FROM t".data = "SELECT 1\n  FROM t".data ∧
    some "SELECT 1\nFROM t".data ≠ some "SELECT 1\n  FROM t".data := by
  decide

/-- C7 (amended): the sql_text of a produced record consists of the
block's content lines each trimmed of leading and trailing whitespace,
joined with their original line breaks, with the whole body trimmed; the
interior (non-edge) text of each content line is preserved. -/
theorem c7_sql_text_trimmed_lines (block : List Char) (q : Query)
    (h : parse_block block = some q) :
    q.sql_text = trimBoth (joinNl (((splitNl block).map trimBoth).filter
      isContentLine)) :=
  (parse_block_some block q h).2.2

/-- C7 witness: the amended claim at a concrete one-line block. -/
theorem c7_witness :
    parse_block "SELECT 1;".data = some ⟨0, 0, 0, 0, none, [], "SELECT 1;".data⟩ ∧
    (⟨0, 0, 0, 0, none, [], "SELECT 1;".data⟩ : Query).sql_text =
      trimBoth (joinNl (((splitNl "SELECT 1;".data).map trimBoth).filter
        isContentLine)) :=
  ⟨rfl, c7_sql_text_trimmed_lines "SELECT 1;".data
    ⟨0, 0, 0, 0, none, [], "SELECT 1;".data⟩ rfl⟩

/-! ## Aggregation lemmas -/

/-- The max/worst step of `aggregate`'s loop, viewed as a fold step on the
pair `(max_time, worst_example_query)`. -/
def wstep (p : ℚ × List Char) (q : Query) : ℚ × List Char :=
  if p.1 < q.query_time then (q.query_time, q.sql_text) else p

/-- The min step of `aggregate`'s loop in source form. -/
def minStep (m : ℚ) (q : Query) : ℚ :=
  if q.query_time < m then q.query_time else m

theorem updateStats_count (st : QueryStats) (q : Query) :
    (updateStats st q).count = st.count + 1 := by
  simp only [updateStats]
  cases q.timestamp <;> split_ifs <;> simp_all

theorem updateStats_total (st : QueryStats) (q : Query) :
    (updateStats st q).total_time = st.total_time + q.query_time := by
  simp only [updateStats]
  cases q.timestamp <;> split_ifs <;> simp_all

theorem updateStats_min (st : QueryStats) (q : Query) :
    (updateStats st q).min_time = minStep st.min_time q := by
  simp only [updateStats, minStep]
  cases q.timestamp <;> split_ifs <;> simp_all

theorem updateStats_maxWorst (st : QueryStats) (q : Query) :
    ((updateStats st q).max_time, (updateStats st q).worst_example_query) =
      wstep (st.max_time, st.worst_example_query) q := by
  simp only [updateStats, wstep]
  cases q.timestamp <;> split_ifs <;> simp_all

theorem updateStats_times (st : QueryStats) (q : Query) :
    (updateStats st q).all_query_times = st.all_query_times ++ [q.query_time] := by
  simp only [updateStats]
  cases q.timestamp <;> split_ifs <;> simp_all

/-- Exact characterization of one accumulator against the processed
stream: the source-form folds of `aggregate`'s loop over the group. -/
def Matches (fp : List Char) (P : List Query) (st : QueryStats) : Prop :=
  st.count = (groupOf fp P).length ∧
  st.total_time = ((groupOf fp P).map Query.query_time).sum ∧
  st.min_time = (groupOf fp P).foldl minStep f64MAX ∧
  (st.max_time, st.worst_example_query) = (groupOf fp P).foldl wstep (0, []) ∧
  st.all_query_times = (groupOf fp P).map Query.query_time

/-- Invariant of the accumulator map over the processed prefix. -/
def InvMap (P : List Query) (m : List (List Char × QueryStats)) : Prop :=
  ∀ fp, (∀ st, lookupS m fp = some st → Matches fp P st) ∧
    (lookupS m fp = none → groupOf fp P = [])

theorem lookupS_replace_self : ∀ (m : List (List Char × QueryStats)) fp st,
    lookupS (replaceOrAppend m fp st) fp = some st := by
  intro m
  induction m with
  | nil => intro fp st; simp [replaceOrAppend, lookupS]
  | cons kv rest ih =>
    intro fp st
    obtain ⟨k, v⟩ := kv
    by_cases hk : k = fp
    · simp [replaceOrAppend, hk, lookupS]
    · simp [replaceOrAppend, hk, lookupS, ih]

theorem lookupS_replace_other : ∀ (m : List (List Char × QueryStats)) fp st fp',
    fp' ≠ fp → lookupS (replaceOrAppend m fp st) fp' = lookupS m fp' := by
  intro m
  induction m with
  | nil =>
    intro fp st fp' hne
    simp only [replaceOrAppend, lookupS]
    rw [if_neg (Ne.symm hne)]
  | cons kv rest ih =>
    intro fp st fp' hne
    obtain ⟨k, v⟩ := kv
    simp only [replaceOrAppend]
    by_cases hk : k = fp
    · rw [if_pos hk]
      simp only [lookupS]
      rw [if_neg (Ne.symm hne), if_neg (by rw [hk]; exact Ne.symm hne)]
    · rw [if_neg hk]
      simp only [lookupS]
      by_cases hk' : k = fp'
      · rw [if_pos hk', if_pos hk']
      · rw [if_neg hk', if_neg hk']
        exact ih fp st fp' hne

theorem groupOf_append_one (fp : List Char) (P : List Query) (q : Query) :
    groupOf fp (P ++ [q]) =
      groupOf fp P ++ (if fingerprint q.sql_text = fp then [q] else []) := by
  simp only [groupOf, List.filter_append, List.filter_cons, List.filter_nil]
  by_cases h : fingerprint q.sql_text = fp
  · rw [if_pos (decide_eq_true h), if_pos h]
  · rw [if_neg (by simpa using h), if_neg h]

theorem Matches_update (fp : List Char) (P : List Query) (st : QueryStats) (q : Query)
    (hfp : fingerprint q.sql_text = fp) (hm : Matches fp P st) :
    Matches fp (P ++ [q]) (updateStats st q) := by
  obtain ⟨h1, h2, h3, h4, h5⟩ := hm
  have hg : groupOf fp (P ++ [q]) = groupOf fp P ++ [q] := by
    rw [groupOf_append_one, if_pos hfp]
  refine ⟨?_, ?_, ?_, ?_, ?_⟩
  · rw [updateStats_count, hg, List.length_append, h1]
    rfl
  · rw [updateStats_total, hg, List.map_append, List.sum_append, h2]
    simp
  · rw [updateStats_min, hg, List.foldl_append, h3]
    rfl
  · rw [updateStats_maxWorst, hg, List.foldl_append, h4]
    rfl
  · rw [updateStats_times, hg, List.map_append, h5]
    rfl

theorem Matches_nil_group (fp : List Char) (P : List Query)
    (hg : groupOf fp P = []) : Matches fp P QueryStats.dflt := by
  refine ⟨?_, ?_, ?_, ?_, ?_⟩ <;> rw [hg] <;> rfl

theorem InvMap_step (P : List Query) (m : List (List Char × QueryStats)) (q : Query)
    (hinv : InvMap P m) : InvMap (P ++ [q]) (aggStep m q) := by
  intro fp
  by_cases hfp : fingerprint q.sql_text = fp
  · constructor
    · intro st hst
      rw [aggStep, hfp] at hst
      rw [lookupS_replace_self] at hst
      have hold : Matches fp P ((lookupS m fp).getD QueryStats.dflt) := by
        cases hl : lookupS m fp with
        | some st0 => simpa [hl] using (hinv fp).1 st0 hl
        | none => simpa [hl] using Matches_nil_group fp P ((hinv fp).2 hl)
      have hmu := Matches_update fp P _ q hfp hold
      obtain rfl : updateStats ((lookupS m fp).getD QueryStats.dflt) q = st := by
        injection hst
      exact hmu
    · intro hnone
      rw [aggStep, hfp, lookupS_replace_self] at hnone
      exact Option.noConfusion hnone
  · have hl : lookupS (aggStep m q) fp = lookupS m fp := by
      rw [aggStep]
      exact lookupS_replace_other m _ _ fp (fun h => hfp h.symm)
    have hg : groupOf fp (P ++ [q]) = groupOf fp P := by
      rw [groupOf_append_one, if_neg hfp, List.append_nil]
    constructor
    · intro st hst
      rw [hl] at hst
      have := (hinv fp).1 st hst
      rw [Matches, hg]
      exact this
    · intro hnone
      rw [hl] at hnone
      rw [hg]
      exact (hinv fp).2 hnone

theorem InvMap_foldl : ∀ (qs P : List Query) (m : List (List Char × QueryStats)),
    InvMap P m → InvMap (P ++ qs) (qs.foldl aggStep m) := by
  intro qs
  induction qs with
  | nil => intro P m h; simpa using h
  | cons q rest ih =>
    intro P m h
    have h1 := InvMap_step P m q h
    have h2 := ih (P ++ [q]) (aggStep m q) h1
    rw [List.append_assoc] at h2
    simpa using h2

/-- Master lemma: every accumulator present in `aggregate`'s result is the
exact source-form fold over its fingerprint group. -/
theorem aggregate_matches (qs : List Query) (fp : List Char) (st : QueryStats)
    (h : lookupS (aggregate qs) fp = some st) : Matches fp qs st := by
  have hinv : InvMap [] [] := by
    intro fp'
    constructor
    · intro st' hst'
      simp [lookupS] at hst'
    · intro _
      simp [groupOf]
  have := InvMap_foldl qs [] [] hinv
  rw [List.nil_append] at this
  exact (this fp).1 st h

theorem minStep_le (a : ℚ) (q : Query) : minStep a q ≤ a := by
  rw [minStep]
  split_ifs with h
  · exact le_of_lt h
  · exact le_refl a

theorem minStep_le_time (a : ℚ) (q : Query) : minStep a q ≤ q.query_time := by
  rw [minStep]
  split_ifs with h
  · exact le_refl _
  · exact le_of_not_lt h

theorem foldl_minStep_le_init : ∀ (G : List Query) (a : ℚ), G.foldl minStep a ≤ a := by
  intro G
  induction G with
  | nil => intro a; exact le_refl a
  | cons q rest ih =>
    intro a
    exact le_trans (ih (minStep a q)) (minStep_le a q)

theorem foldl_minStep_le : ∀ (G : List Query) (a : ℚ) (q : Query), q ∈ G →
    G.foldl minStep a ≤ q.query_time := by
  intro G
  induction G with
  | nil => intro a q hq; simp at hq
  | cons c rest ih =>
    intro a q hq
    rcases List.mem_cons.mp hq with rfl | hmem
    · exact le_trans (foldl_minStep_le_init rest (minStep a q)) (minStep_le_time a q)
    · exact ih (minStep a c) q hmem

theorem wstep_fst_ge (p : ℚ × List Char) (q : Query) : p.1 ≤ (wstep p q).1 := by
  rw [wstep]
  split_ifs with h
  · exact le_of_lt h
  · exact le_refl _

theorem wstep_fst_ge_time (p : ℚ × List Char) (q : Query) :
    q.query_time ≤ (wstep p q).1 := by
  rw [wstep]
  split_ifs with h
  · exact le_refl _
  · exact le_of_not_lt h

theorem foldl_wstep_fst_mono : ∀ (G : List Query) (p : ℚ × List Char),
    p.1 ≤ (G.foldl wstep p).1 := by
  intro G
  induction G with
  | nil => intro p; exact le_refl _
  | cons q rest ih =>
    intro p
    exact le_trans (wstep_fst_ge p q) (ih (wstep p q))

theorem foldl_wstep_fst_ge : ∀ (G : List Query) (p : ℚ × List Char) (q : Query),
    q ∈ G → q.query_time ≤ (G.foldl wstep p).1 := by
  intro G
  induction G with
  | nil => intro p q hq; simp at hq
  | cons c rest ih =>
    intro p q hq
    rcases List.mem_cons.mp hq with rfl | hmem
    · exact le_trans (wstep_fst_ge_time p q) (foldl_wstep_fst_mono rest (wstep p q))
    · exact ih (wstep p c) q hmem

/-- C1: for every fingerprint present in `aggregate`'s result, the count
equals the number of stream records in that fingerprint group, `min_time`
bounds every sample of the group from below and `max_time` from above,
and `total_time` is the exact sum of the group's samples (floats embedded
as exact rationals). -/
theorem c1_aggregate_invariants (qs : List Query) (fp : List Char) (st : QueryStats)
    (h : lookupS (aggregate qs) fp = some st) :
    st.count = (groupOf fp qs).length ∧
    (∀ q ∈ groupOf fp qs, st.min_time ≤ q.query_time ∧ q.query_time ≤ st.max_time) ∧
    st.total_time = ((groupOf fp qs).map Query.query_time).sum := by
  obtain ⟨h1, h2, h3, h4, h5⟩ := aggregate_matches qs fp st h
  refine ⟨h1, ?_, h2⟩
  intro q hq
  constructor
  · rw [h3]
    exact foldl_minStep_le _ _ q hq
  · have hmax : st.max_time = ((groupOf fp qs).foldl wstep (0, [])).1 :=
      congrArg Prod.fst h4
    rw [hmax]
    exact foldl_wstep_fst_ge _ _ q hq

/-- A sample query record used by the concrete witnesses: the given
query time and text, everything else zero/absent. -/
def sampleQ (t : ℚ) (s : List Char) : Query :=
  ⟨t, 0, 0, 0, none, [], s⟩

/-- C1 witness: a single-record stream. -/
theorem c1_witness :
    lookupS (aggregate [sampleQ 1 "SELECT 1".data]) (fingerprint "SELECT 1".data) =
      some (updateStats QueryStats.dflt (sampleQ 1 "SELECT 1".data)) ∧
    ((updateStats QueryStats.dflt (sampleQ 1 "SELECT 1".data)).count =
      (groupOf (fingerprint "SELECT 1".data) [sampleQ 1 "SELECT 1".data]).length ∧
    (∀ q ∈ groupOf (fingerprint "SELECT 1".data) [sampleQ 1 "SELECT 1".data],
      (updateStats QueryStats.dflt (sampleQ 1 "SELECT 1".data)).min_time ≤
        q.query_time ∧
      q.query_time ≤
        (updateStats QueryStats.dflt (sampleQ 1 "SELECT 1".data)).max_time) ∧
    (updateStats QueryStats.dflt (sampleQ 1 "SELECT 1".data)).total_time =
      ((groupOf (fingerprint "SELECT 1".data) [sampleQ 1 "SELECT 1".data]).map
        Query.query_time).sum) :=
  ⟨rfl, c1_aggregate_invariants [sampleQ 1 "SELECT 1".data]
    (fingerprint "SELECT 1".data) (updateStats QueryStats.dflt
      (sampleQ 1 "SELECT 1".data)) rfl⟩

/-- C10: the per-group retained latency sample list has exactly one entry
per aggregated record of that group. -/
theorem c10_samples_per_record (qs : List Query) (fp : List Char) (st : QueryStats)
    (h : lookupS (aggregate qs) fp = some st) :
    st.all_query_times.length = st.count := by
  obtain ⟨h1, _, _, _, h5⟩ := aggregate_matches qs fp st h
  rw [h5, List.length_map, h1]

/-- C10 witness: a single-record stream. -/
theorem c10_witness :
    lookupS (aggregate [sampleQ 2 "SELECT 2".data]) (fingerprint "SELECT 2".data) =
      some (updateStats QueryStats.dflt (sampleQ 2 "SELECT 2".data)) ∧
    (updateStats QueryStats.dflt (sampleQ 2 "SELECT 2".data)).all_query_times.length =
      (updateStats QueryStats.dflt (sampleQ 2 "SELECT 2".data)).count :=
  ⟨rfl, c10_samples_per_record [sampleQ 2 "SELECT 2".data]
    (fingerprint "SELECT 2".data) (updateStats QueryStats.dflt
      (sampleQ 2 "SELECT 2".data)) rfl⟩

theorem wstep_first_max : ∀ G : List Query,
    0 < (G.foldl wstep ((0 : ℚ), ([] : List Char))).1 →
    ∃ q, G.find? (fun x => decide (x.query_time =
        (G.foldl wstep ((0 : ℚ), ([] : List Char))).1)) = some q ∧
      (G.foldl wstep ((0 : ℚ), ([] : List Char))).2 = q.sql_text := by
  intro G
  induction G using List.reverseRecOn with
  | nil =>
    intro h
    exact absurd h (lt_irrefl 0)
  | append_singleton G x ih =>
    intro h
    rw [List.foldl_append, List.foldl_cons, List.foldl_nil] at h ⊢
    by_cases hlt : (G.foldl wstep ((0 : ℚ), ([] : List Char))).1 < x.query_time
    · have hw : wstep (G.foldl wstep ((0 : ℚ), ([] : List Char))) x =
          (x.query_time, x.sql_text) := by
        rw [wstep, if_pos hlt]
      rw [hw]
      refine ⟨x, ?_, rfl⟩
      rw [List.find?_append]
      have hnone : G.find? (fun y => decide (y.query_time = x.query_time)) = none := by
        rw [List.find?_eq_none]
        intro y hy
        simp only [decide_eq_true_eq]
        intro heq
        have hle := foldl_wstep_fst_ge G ((0 : ℚ), ([] : List Char)) y hy
        rw [heq] at hle
        exact absurd hlt (not_lt.mpr hle)
      rw [hnone, Option.none_or]
      exact List.find?_cons_of_pos [] (decide_eq_true rfl)
    · have hw : wstep (G.foldl wstep ((0 : ℚ), ([] : List Char))) x =
          G.foldl wstep ((0 : ℚ), ([] : List Char)) := by
        rw [wstep, if_neg hlt]
      rw [hw] at h ⊢
      obtain ⟨q, hfind, hsnd⟩ := ih h
      refine ⟨q, ?_, hsnd⟩
      rw [List.find?_append, hfind]
      rfl

/-- C6 (amended): for every group in the aggregate result whose
`max_time` is positive, `worst_example_query` is the sql text of the
first record of the group attaining `max_time` (records tying a previous
maximum never update it, since the update fires only on a strict
increase); in particular, for two records of identical shape with times
`0.1` and `0.5`, it is the text of the `0.5` record.  (When no record has
a positive time, the `0`-initialized `max_time` never strictly increases
and the worst example stays empty.) -/
theorem c6_worst_first_strict_max :
    (∀ (qs : List Query) (fp : List Char) (st : QueryStats),
      lookupS (aggregate qs) fp = some st → 0 < st.max_time →
      ∃ q, (groupOf fp qs).find?
          (fun x => decide (x.query_time = st.max_time)) = some q ∧
        st.worst_example_query = q.sql_text) ∧
    (∀ st : QueryStats,
      lookupS (aggregate [sampleQ (1/10) "SELECT 10".data,
          sampleQ (5/10) "SELECT 50".data]) (fingerprint "SELECT 10".data) =
        some st →
      st.max_time = 5/10 ∧ st.worst_example_query = "SELECT 50".data) := by
  constructor
  · intro qs fp st h hpos
    obtain ⟨_, _, _, h4, _⟩ := aggregate_matches qs fp st h
    have hmax : st.max_time = ((groupOf fp qs).foldl wstep (0, [])).1 :=
      congrArg Prod.fst h4
    have hworst : st.worst_example_query =
        ((groupOf fp qs).foldl wstep (0, [])).2 := congrArg Prod.snd h4
    rw [hmax] at hpos
    obtain ⟨q, hfind, hsnd⟩ := wstep_first_max (groupOf fp qs) hpos
    refine ⟨q, ?_, ?_⟩
    · rw [hmax]
      exact hfind
    · rw [hworst]
      exact hsnd
  · intro st h
    obtain ⟨_, _, _, h4, _⟩ := aggregate_matches _ _ _ h
    have hG : groupOf (fingerprint "SELECT 10".data)
        [sampleQ (1/10) "SELECT 10".data, sampleQ (5/10) "SELECT 50".data] =
        [sampleQ (1/10) "SELECT 10".data, sampleQ (5/10) "SELECT 50".data] := by
      simp only [groupOf, List.filter_cons, List.filter_nil]
      rw [if_pos (decide_eq_true (show
        fingerprint (sampleQ (1/10) "SELECT 10".data).sql_text =
          fingerprint "SELECT 10".data by decide))]
      rw [if_pos (decide_eq_true (show
        fingerprint (sampleQ (5/10) "SELECT 50".data).sql_text =
          fingerprint "SELECT 10".data by decide))]
    rw [hG] at h4
    have hfold : List.foldl wstep ((0 : ℚ), ([] : List Char))
        [sampleQ (1/10) "SELECT 10".data, sampleQ (5/10) "SELECT 50".data] =
        (5/10, "SELECT 50".data) := by
      rw [List.foldl_cons]
      rw [show wstep ((0 : ℚ), ([] : List Char)) (sampleQ (1/10) "SELECT 10".data) =
        (1/10, "SELECT 10".data) from by
          rw [wstep, if_pos (by norm_num [sampleQ] : ((0 : ℚ), ([] : List Char)).1 <
            (sampleQ (1/10) "SELECT 10".data).query_time)]
          rfl]
      rw [List.foldl_cons, List.foldl_nil]
      rw [wstep, if_pos (by norm_num [sampleQ] : ((1/10 : ℚ), "SELECT 10".data).1 <
        (sampleQ (5/10) "SELECT 50".data).query_time)]
      rfl
    rw [hfold] at h4
    exact ⟨congrArg Prod.fst h4, congrArg Prod.snd h4⟩

set_option maxRecDepth 4000 in
/-- C6 counterexample: a single record whose `query_time` is `0` (as
produced, e.g., for blocks without a metrics line).  Its group's maximum
`query_time` is `0` and the record itself attains it, but
`worst_example_query` remains the empty initial string, not the record's
text: the claim fails for groups whose maximum is not positive. -/
theorem c6_counterexample :
    lookupS (aggregate [sampleQ 0 "SELECT 1".data]) (fingerprint "SELECT 1".data) =
      some (updateStats QueryStats.dflt (sampleQ 0 "SELECT 1".data)) ∧
    (updateStats QueryStats.dflt (sampleQ 0 "SELECT 1".data)).max_time = 0 ∧
    (updateStats QueryStats.dflt (sampleQ 0 "SELECT 1".data)).worst_example_query
      = [] ∧
    (groupOf (fingerprint "SELECT 1".data) [sampleQ 0 "SELECT 1".data]).find?
      (fun x => decide (x.query_time = 0)) = some (sampleQ 0 "SELECT 1".data) ∧
    (sampleQ 0 "SELECT 1".data).sql_text = "SELECT 1".data ∧
    ([] : List Char) ≠ "SELECT 1".data := by
  have hpair := updateStats_maxWorst QueryStats.dflt (sampleQ 0 "SELECT 1".data)
  rw [show wstep (QueryStats.dflt.max_time, QueryStats.dflt.worst_example_query)
      (sampleQ 0 "SELECT 1".data) = ((0 : ℚ), ([] : List Char)) from by
    rw [wstep, if_neg (show ¬(QueryStats.dflt.max_time,
      QueryStats.dflt.worst_example_query).1 <
      (sampleQ 0 "SELECT 1".data).query_time from lt_irrefl 0)]
    rfl] at hpair
  refine ⟨rfl, congrArg Prod.fst hpair, congrArg Prod.snd hpair, ?_, rfl, by decide⟩
  rw [show groupOf (fingerprint "SELECT 1".data) [sampleQ 0 "SELECT 1".data] =
      [sampleQ 0 "SELECT 1".data] from by
    simp only [groupOf, List.filter_cons, List.filter_nil]
    rw [if_pos (decide_eq_true (show
      fingerprint (sampleQ 0 "SELECT 1".data).sql_text =
        fingerprint "SELECT 1".data by decide))]]
  exact List.find?_cons_of_pos [] (decide_eq_true rfl)

set_option maxRecDepth 4000 in
/-- C6 witness: a single-record stream with positive query time. -/
theorem c6_witness :
    (0 : ℚ) < (updateStats QueryStats.dflt (sampleQ 1 "SELECT 1".data)).max_time ∧
    ∃ q, (groupOf (fingerprint "SELECT 1".data) [sampleQ 1 "SELECT 1".data]).find?
        (fun x => decide (x.query_time =
          (updateStats QueryStats.dflt (sampleQ 1 "SELECT 1".data)).max_time)) =
        some q ∧
      (updateStats QueryStats.dflt (sampleQ 1 "SELECT 1".data)).worst_example_query =
        q.sql_text := by
  have hpair := updateStats_maxWorst QueryStats.dflt (sampleQ 1 "SELECT 1".data)
  rw [show wstep (QueryStats.dflt.max_time, QueryStats.dflt.worst_example_query)
      (sampleQ 1 "SELECT 1".data) = ((1 : ℚ), "SELECT 1".data) from by
    rw [wstep, if_pos (show (QueryStats.dflt.max_time,
        QueryStats.dflt.worst_example_query).1 <
        (sampleQ 1 "SELECT 1".data).query_time from zero_lt_one)]
    rfl] at hpair
  have hmax : (updateStats QueryStats.dflt (sampleQ 1 "SELECT 1".data)).max_time = 1 :=
    congrArg Prod.fst hpair
  exact ⟨by rw [hmax]; exact zero_lt_one,
    c6_worst_first_strict_max.1 [sampleQ 1 "SELECT 1".data]
      (fingerprint "SELECT 1".data)
      (updateStats QueryStats.dflt (sampleQ 1 "SELECT 1".data)) rfl
      (by rw [hmax]; exact zero_lt_one)⟩

/-! ## Lowercasing lemmas (ASCII model of `str::to_lowercase`) -/

theorem char_toNat_ofNat (n : ℕ) (h : Nat.isValidChar n) : (Char.ofNat n).toNat = n := by
  unfold Char.ofNat
  rw [dif_pos h]
  rfl

theorem char_toNat_inj {a b : Char} (h : a.toNat = b.toNat) : a = b :=
  Char.eq_of_val_eq (UInt32.eq_of_toBitVec_eq (BitVec.eq_of_toNat_eq h))

theorem toLower_toNat (c : Char) : (Char.toLower c).toNat =
    if c.toNat ≥ 65 ∧ c.toNat ≤ 90 then c.toNat + 32 else c.toNat := by
  unfold Char.toLower
  by_cases h : c.toNat ≥ 65 ∧ c.toNat ≤ 90
  · rw [if_pos h, if_pos h]
    exact char_toNat_ofNat _ (Or.inl (by omega))
  · rw [if_neg h, if_neg h]

theorem isWsChar_toLower (c : Char) : isWsChar (Char.toLower c) = isWsChar c := by
  simp only [isWsChar, toLower_toNat]
  by_cases h : c.toNat ≥ 65 ∧ c.toNat ≤ 90
  · rw [if_pos h, Bool.eq_iff_iff]
    simp only [Bool.or_eq_true, decide_eq_true_eq]
    omega
  · rw [if_neg h]

theorem isDigitChar_toLower (c : Char) : isDigitChar (Char.toLower c) = isDigitChar c := by
  simp only [isDigitChar, toLower_toNat]
  by_cases h : c.toNat ≥ 65 ∧ c.toNat ≤ 90
  · rw [if_pos h, Bool.eq_iff_iff]
    simp only [Bool.and_eq_true, decide_eq_true_eq]
    omega
  · rw [if_neg h]

theorem isWordChar_toLower (c : Char) : isWordChar (Char.toLower c) = isWordChar c := by
  simp only [isWordChar, toLower_toNat]
  by_cases h : c.toNat ≥ 65 ∧ c.toNat ≤ 90
  · rw [if_pos h, Bool.eq_iff_iff]
    simp only [Bool.or_eq_true, Bool.and_eq_true, decide_eq_true_eq]
    omega
  · rw [if_neg h]

theorem toLower_eq_quote_iff (c : Char) : Char.toLower c = '\'' ↔ c = '\'' := by
  constructor
  · intro h
    have hn := toLower_toNat c
    rw [h] at hn
    by_cases hc : c.toNat ≥ 65 ∧ c.toNat ≤ 90
    · rw [if_pos hc] at hn
      have hn' : (39 : ℕ) = c.toNat + 32 := hn
      omega
    · rw [if_neg hc] at hn
      exact char_toNat_inj hn.symm
  · intro h
    rw [h]
    rfl

theorem toLower_eq_nl_iff (c : Char) : Char.toLower c = '\n' ↔ c = '\n' := by
  constructor
  · intro h
    have hn := toLower_toNat c
    rw [h] at hn
    by_cases hc : c.toNat ≥ 65 ∧ c.toNat ≤ 90
    · rw [if_pos hc] at hn
      have hn' : (10 : ℕ) = c.toNat + 32 := hn
      omega
    · rw [if_neg hc] at hn
      exact char_toNat_inj hn.symm
  · intro h
    rw [h]
    rfl

theorem toLower_toLower (c : Char) : Char.toLower (Char.toLower c) = Char.toLower c := by
  apply char_toNat_inj
  rw [toLower_toNat, toLower_toNat]
  split_ifs <;> omega

theorem toLower_eq_space_iff (c : Char) : Char.toLower c = ' ' ↔ c = ' ' := by
  constructor
  · intro h
    have hn := toLower_toNat c
    rw [h] at hn
    by_cases hc : c.toNat ≥ 65 ∧ c.toNat ≤ 90
    · rw [if_pos hc] at hn
      have hn' : (32 : ℕ) = c.toNat + 32 := hn
      omega
    · rw [if_neg hc] at hn
      exact char_toNat_inj hn.symm
  · intro h
    rw [h]
    rfl

/-! ## Idempotence analysis of `fingerprint` -/

/-- Number of single-quote characters in a text. -/
def quoteCount : List Char → ℕ
  | [] => 0
  | c :: rest => (if c = '\'' then 1 else 0) + quoteCount rest

/-- Is the head character (if any) whitespace? -/
def headWs : List Char → Bool
  | [] => false
  | c :: _ => isWsChar c

/-- The head character (if any) is not a decimal digit. -/
def headNotDigit : List Char → Bool
  | [] => true
  | c :: _ => !isDigitChar c

/-- No position of the text triggers the number pattern `\b\d+\b`; the
`Bool` records whether the character before the text is a word character. -/
def noNum : Bool → List Char → Bool
  | _, [] => true
  | p, c :: rest => !numTrig p (c :: rest) && noNum (isWordChar c) rest

/-- Whitespace-normal form established by `collapse`: every whitespace
character is a single space not followed by further whitespace. -/
def wsNormal : List Char → Bool
  | [] => true
  | c :: rest => (!isWsChar c || (c = ' ' && !headWs rest)) && wsNormal rest

theorem isWordChar_of_digit {c : Char} (h : isDigitChar c = true) :
    isWordChar c = true := by
  simp only [isDigitChar, Bool.and_eq_true, decide_eq_true_eq] at h
  simp only [isWordChar, Bool.or_eq_true, Bool.and_eq_true, decide_eq_true_eq]
  omega

theorem not_ws_of_word {c : Char} (h : isWordChar c = true) :
    isWsChar c = false := by
  simp only [isWordChar, Bool.or_eq_true, Bool.and_eq_true, decide_eq_true_eq] at h
  rw [Bool.eq_false_iff]
  intro hw
  simp only [isWsChar, Bool.or_eq_true, decide_eq_true_eq] at hw
  omega

theorem quoteCount_append : ∀ a b : List Char,
    quoteCount (a ++ b) = quoteCount a + quoteCount b
  | [], b => by simp [quoteCount]
  | c :: a, b => by
    simp only [List.cons_append, quoteCount, List.append_eq, quoteCount_append a b,
      Nat.add_assoc]

theorem quoteCount_dropWhile_le (p : Char → Bool) : ∀ l : List Char,
    quoteCount (l.dropWhile p) ≤ quoteCount l
  | [] => le_refl _
  | c :: rest => by
    rw [List.dropWhile_cons]
    by_cases hc : p c
    · rw [if_pos hc]
      simp only [quoteCount]
      exact le_trans (quoteCount_dropWhile_le p rest) (Nat.le_add_left _ _)
    · rw [if_neg hc]

theorem quoteCount_reverse : ∀ l : List Char, quoteCount l.reverse = quoteCount l
  | [] => rfl
  | c :: rest => by
    have ih := quoteCount_reverse rest
    simp only [List.reverse_cons, quoteCount_append, quoteCount, ih]
    omega

theorem quoteCount_lowerStr : ∀ l : List Char, quoteCount (lowerStr l) = quoteCount l
  | [] => rfl
  | c :: rest => by
    have ih := quoteCount_lowerStr rest
    simp only [lowerStr, List.map_cons, quoteCount] at ih ⊢
    have h1 : (if Char.toLower c = '\'' then 1 else 0) = (if c = '\'' then 1 else 0 : ℕ) := by
      by_cases h : c = '\''
      · rw [if_pos h, if_pos ((toLower_eq_quote_iff c).mpr h)]
      · rw [if_neg h, if_neg (fun hh => h ((toLower_eq_quote_iff c).mp hh))]
    rw [h1, ih]

theorem quoteCount_trimBoth_le (l : List Char) :
    quoteCount (trimBoth l) ≤ quoteCount l := by
  rw [trimBoth, trimTrail, quoteCount_reverse]
  calc quoteCount ((l.dropWhile isWsChar).reverse.dropWhile isWsChar)
      ≤ quoteCount (l.dropWhile isWsChar).reverse := quoteCount_dropWhile_le _ _
    _ = quoteCount (l.dropWhile isWsChar) := quoteCount_reverse _
    _ ≤ quoteCount l := quoteCount_dropWhile_le _ _

theorem strBody_quote_isSome : ∀ rest : List Char,
    (strBody ('\'' :: rest)).isSome = true := by
  intro rest
  rw [strBody.eq_def]
  dsimp only
  rw [if_pos rfl]
  cases rest with
  | nil => rfl
  | cons d rest' =>
    dsimp only
    by_cases hd : d = '\''
    · rw [if_pos hd]
      cases hs : strBody rest' with
      | some r => rfl
      | none => rfl
    · rw [if_neg hd]
      rfl

theorem strBody_cons_ne (c : Char) (rest : List Char) (hc : ¬ c = '\'') :
    strBody (c :: rest) = strBody rest := by
  rw [strBody.eq_def]
  dsimp only
  rw [if_neg hc]

theorem strBody_none_iff : ∀ l : List Char, strBody l = none ↔ quoteCount l = 0
  | [] => ⟨fun _ => rfl, fun _ => rfl⟩
  | c :: rest => by
    by_cases hc : c = '\''
    · subst hc
      constructor
      · intro h
        exfalso
        have hs := strBody_quote_isSome rest
        rw [h] at hs
        simp at hs
      · intro h
        exfalso
        simp only [quoteCount, if_pos rfl] at h
        simp only [if_true] at h
        omega
    · have ih := strBody_none_iff rest
      rw [strBody_cons_ne c rest hc]
      simp only [quoteCount, if_neg hc]
      rw [ih]
      omega

theorem strScanF_noQuote : ∀ (fuel : ℕ) (l : List Char), quoteCount l = 0 →
    strScanF fuel l = l := by
  intro fuel
  induction fuel with
  | zero => intro l h; cases l <;> rfl
  | succ fuel ih =>
    intro l h
    cases l with
    | nil => rfl
    | cons c rest =>
      have hc : ¬ c = '\'' := by
        intro hq
        simp only [quoteCount, if_pos hq] at h
        omega
      have hrest : quoteCount rest = 0 := by
        simp only [quoteCount, if_neg hc] at h
        omega
      simp only [strScanF, if_neg hc]
      rw [ih rest hrest]

theorem strScanF_quoteCount : ∀ (fuel : ℕ) (l : List Char), l.length ≤ fuel →
    quoteCount (strScanF fuel l) ≤ 1 := by
  intro fuel
  induction fuel with
  | zero =>
    intro l h
    have : l = [] := List.length_eq_zero.mp (Nat.le_zero.mp h)
    subst this
    simp [strScanF, quoteCount]
  | succ fuel ih =>
    intro l h
    cases l with
    | nil => simp [strScanF, quoteCount]
    | cons c rest =>
      simp only [List.length_cons] at h
      by_cases hc : c = '\''
      · cases hb : strBody rest with
        | some r =>
          simp only [strScanF, if_pos hc, hb]
          have hlen := strBody_length rest r hb
          have h1 : quoteCount (strScanF fuel r) ≤ 1 := ih r (by omega)
          simp only [quoteCount]
          have h9 : (if ('?' : Char) = '\'' then (1 : ℕ) else 0) = 0 := rfl
          rw [h9]
          omega
        | none =>
          have h0 : quoteCount rest = 0 := (strBody_none_iff rest).mp hb
          simp only [strScanF, if_pos hc, hb]
          rw [strScanF_noQuote fuel rest h0]
          simp only [quoteCount, if_pos hc]
          omega
      · simp only [strScanF, if_neg hc]
        simp only [quoteCount, if_neg hc]
        have := ih rest (by omega)
        omega

theorem strScanF_of_count_le_one : ∀ (fuel : ℕ) (l : List Char),
    quoteCount l ≤ 1 → strScanF fuel l = l := by
  intro fuel
  induction fuel with
  | zero => intro l h; cases l <;> rfl
  | succ fuel ih =>
    intro l h
    cases l with
    | nil => rfl
    | cons c rest =>
      by_cases hc : c = '\''
      · have h0 : quoteCount rest = 0 := by
          simp only [quoteCount, if_pos hc] at h
          omega
        have hb : strBody rest = none := (strBody_none_iff rest).mpr h0
        simp only [strScanF, if_pos hc, hb]
        rw [strScanF_noQuote fuel rest h0]
      · have h1 : quoteCount rest ≤ 1 := by
          simp only [quoteCount, if_neg hc] at h
          omega
        simp only [strScanF, if_neg hc]
        rw [ih rest h1]

theorem quoteCount_numScanF_le : ∀ (fuel : ℕ) (p : Bool) (l : List Char),
    quoteCount (numScanF fuel p l) ≤ quoteCount l := by
  intro fuel
  induction fuel with
  | zero => intro p l; exact le_of_eq (by cases l <;> rfl)
  | succ fuel ih =>
    intro p l
    cases l with
    | nil => exact le_refl _
    | cons c rest =>
      by_cases ht : numTrig p (c :: rest) = true
      · simp only [numScanF, if_pos ht]
        simp only [quoteCount]
        have h9 : (if ('?' : Char) = '\'' then (1 : ℕ) else 0) = 0 := rfl
        rw [h9]
        have h1 := ih true (rest.dropWhile isDigitChar)
        have h2 := quoteCount_dropWhile_le isDigitChar rest
        omega
      · simp only [numScanF, if_neg ht]
        simp only [quoteCount]
        have := ih (isWordChar c) rest
        omega

theorem quoteCount_collapseF_le : ∀ (fuel : ℕ) (l : List Char),
    quoteCount (collapseF fuel l) ≤ quoteCount l := by
  intro fuel
  induction fuel with
  | zero => intro l; exact le_of_eq (by cases l <;> rfl)
  | succ fuel ih =>
    intro l
    cases l with
    | nil => exact le_refl _
    | cons c rest =>
      by_cases hw : isWsChar c = true
      · simp only [collapseF, if_pos hw]
        simp only [quoteCount]
        have h9 : (if (' ' : Char) = '\'' then (1 : ℕ) else 0) = 0 := rfl
        rw [h9]
        have h1 := ih (rest.dropWhile isWsChar)
        have h2 := quoteCount_dropWhile_le isWsChar rest
        omega
      · simp only [collapseF, if_neg hw]
        simp only [quoteCount]
        have := ih rest
        omega

theorem quoteCount_fingerprint_le_one (x : List Char) :
    quoteCount (fingerprint x) ≤ 1 := by
  rw [fingerprint, quoteCount_lowerStr]
  calc quoteCount (trimBoth (collapse (numScan false (strScan (commentScan (useScan x))))))
      ≤ quoteCount (collapse (numScan false (strScan (commentScan (useScan x))))) :=
        quoteCount_trimBoth_le _
    _ ≤ quoteCount (numScan false (strScan (commentScan (useScan x)))) :=
        quoteCount_collapseF_le _ _
    _ ≤ quoteCount (strScan (commentScan (useScan x))) := quoteCount_numScanF_le _ _ _
    _ ≤ 1 := strScanF_quoteCount _ _ (le_refl _)

theorem strScan_fingerprint (x : List Char) : strScan (fingerprint x) = fingerprint x :=
  strScanF_of_count_le_one _ _ (quoteCount_fingerprint_le_one x)

theorem headNotDigit_dropWhile (l : List Char) :
    headNotDigit (l.dropWhile isDigitChar) = true := by
  cases hd : l.dropWhile isDigitChar with
  | nil => rfl
  | cons c t =>
    have hc := dropWhile_head_false isDigitChar l c t hd
    simp [headNotDigit, hc]

theorem headWs_dropWhile (l : List Char) :
    headWs (l.dropWhile isWsChar) = false := by
  cases hd : l.dropWhile isWsChar with
  | nil => rfl
  | cons c t =>
    have hc := dropWhile_head_false isWsChar l c t hd
    simp [headWs, hc]

theorem numTrig_not_digit {p : Bool} : ∀ {l : List Char}, headNotDigit l = true →
    numTrig p l = false
  | [], _ => rfl
  | c :: rest, h => by
    simp only [headNotDigit, Bool.not_eq_true'] at h
    simp only [numTrig, h, Bool.false_and]

theorem noNum_congr {p q : Bool} : ∀ {l : List Char}, headNotDigit l = true →
    noNum p l = noNum q l
  | [], _ => rfl
  | c :: rest, h => by
    simp only [noNum, numTrig_not_digit h (p := p), numTrig_not_digit h (p := q)]

theorem headNotDigit_numScanF (fuel : ℕ) (p : Bool) (l : List Char)
    (h : headNotDigit l = true) : headNotDigit (numScanF fuel p l) = true := by
  cases fuel with
  | zero =>
    cases l with
    | nil => rfl
    | cons c rest => exact h
  | succ fuel =>
    cases l with
    | nil => rfl
    | cons c rest =>
      by_cases ht : numTrig p (c :: rest) = true
      · simp only [numScanF, if_pos ht]
        rfl
      · simp only [numScanF, if_neg ht]
        exact h

theorem numScanF_digit_head : ∀ (l : List Char) (fuel : ℕ) (w : Char) (t : List Char),
    isWordChar w = true →
    l.dropWhile isDigitChar = w :: t →
    ∃ t', (numScanF fuel true l).dropWhile isDigitChar = w :: t' := by
  intro l
  induction l with
  | nil =>
    intro fuel w t hw hdrop
    simp at hdrop
  | cons c rest ih =>
    intro fuel w t hw hdrop
    cases fuel with
    | zero => exact ⟨t, hdrop⟩
    | succ fuel =>
      have ht : ¬ numTrig true (c :: rest) = true := by
        simp [numTrig]
      simp only [numScanF, if_neg ht]
      by_cases hc : isDigitChar c = true
      · rw [List.dropWhile_cons, if_pos hc] at hdrop
        rw [List.dropWhile_cons, if_pos hc]
        rw [isWordChar_of_digit hc]
        exact ih fuel w t hw hdrop
      · rw [List.dropWhile_cons, if_neg hc] at hdrop
        injection hdrop with h1 h2
        refine ⟨numScanF fuel (isWordChar c) rest, ?_⟩
        rw [List.dropWhile_cons, if_neg hc, h1]

theorem noNum_numScanF : ∀ (fuel : ℕ) (p : Bool) (l : List Char), l.length ≤ fuel →
    noNum p (numScanF fuel p l) = true := by
  intro fuel
  induction fuel with
  | zero =>
    intro p l h
    have : l = [] := List.length_eq_zero.mp (Nat.le_zero.mp h)
    subst this
    rfl
  | succ fuel ih =>
    intro p l h
    cases l with
    | nil => rfl
    | cons c rest =>
      simp only [List.length_cons] at h
      by_cases ht : numTrig p (c :: rest) = true
      · simp only [numScanF, if_pos ht]
        have hr : (rest.dropWhile isDigitChar).length ≤ fuel := by
          have := length_dropWhile_le isDigitChar rest
          omega
        have ihh := ih true (rest.dropWhile isDigitChar) hr
        have hnd := headNotDigit_numScanF fuel true (rest.dropWhile isDigitChar)
          (headNotDigit_dropWhile rest)
        simp only [noNum]
        have h1 : numTrig p
            ('?' :: numScanF fuel true (rest.dropWhile isDigitChar)) = false :=
          numTrig_not_digit (by rfl)
        have h2 : noNum (isWordChar '?') (numScanF fuel true (rest.dropWhile isDigitChar)) =
            noNum true (numScanF fuel true (rest.dropWhile isDigitChar)) :=
          noNum_congr hnd
        rw [h1, h2, ihh]
        rfl
      · simp only [numScanF, if_neg ht]
        have h2 := ih (isWordChar c) rest (by omega)
        simp only [noNum]
        have h1 : numTrig p (c :: numScanF fuel (isWordChar c) rest) = false := by
          by_cases hc : isDigitChar c = true
          · by_cases hp : p = true
            · simp [numTrig, hp]
            · have hpf : p = false := Bool.eq_false_iff.mpr hp
              have hb : boundaryOk (rest.dropWhile isDigitChar) = false := by
                rw [Bool.eq_false_iff]
                intro hbt
                exact ht (by simp [numTrig, hc, hpf, hbt])
              cases hdw : rest.dropWhile isDigitChar with
              | nil => rw [hdw] at hb; simp [boundaryOk] at hb
              | cons w twl =>
                rw [hdw] at hb
                simp only [boundaryOk, Bool.not_eq_false'] at hb
                have hwc : isWordChar c = true := isWordChar_of_digit hc
                rw [hwc]
                obtain ⟨t', ht'⟩ := numScanF_digit_head rest fuel w twl hb hdw
                simp only [numTrig, ht', boundaryOk, hb, Bool.not_true, Bool.and_false]
          · simp [numTrig, hc]
        rw [h1, h2]
        rfl

theorem numScanF_of_noNum : ∀ (fuel : ℕ) (p : Bool) (l : List Char),
    noNum p l = true → numScanF fuel p l = l := by
  intro fuel
  induction fuel with
  | zero => intro p l h; cases l <;> rfl
  | succ fuel ih =>
    intro p l h
    cases l with
    | nil => rfl
    | cons c rest =>
      simp only [noNum, Bool.and_eq_true, Bool.not_eq_true'] at h
      obtain ⟨h1, h2⟩ := h
      have ht : ¬ numTrig p (c :: rest) = true := by
        rw [h1]
        exact Bool.false_ne_true
      simp only [numScanF, if_neg ht]
      rw [ih (isWordChar c) rest h2]

theorem not_word_of_ws {c : Char} (h : isWsChar c = true) : isWordChar c = false := by
  cases hw : isWordChar c with
  | false => rfl
  | true => rw [not_ws_of_word hw] at h; exact absurd h (by simp)

theorem not_digit_of_ws {c : Char} (h : isWsChar c = true) : isDigitChar c = false := by
  cases hd : isDigitChar c with
  | false => rfl
  | true => rw [not_ws_of_word (isWordChar_of_digit hd)] at h; exact absurd h (by simp)

theorem noNum_dropWhile_ws : ∀ l : List Char, noNum false l = true →
    noNum false (l.dropWhile isWsChar) = true := by
  intro l
  induction l with
  | nil => intro h; exact h
  | cons c rest ih =>
    intro h
    rw [List.dropWhile_cons]
    by_cases hws : isWsChar c = true
    · rw [if_pos hws]
      simp only [noNum, Bool.and_eq_true] at h
      have h2 := h.2
      rw [not_word_of_ws hws] at h2
      exact ih h2
    · rw [if_neg hws]
      exact h

theorem noNum_append_ws : ∀ (a : List Char) (p : Bool) (s : List Char),
    s.all isWsChar = true → noNum p (a ++ s) = true → noNum p a = true := by
  intro a
  induction a with
  | nil => intro p s hs h; rfl
  | cons c a' ih =>
    intro p s hs h
    rw [List.cons_append] at h
    simp only [noNum, Bool.and_eq_true, Bool.not_eq_true'] at h ⊢
    obtain ⟨h1, h2⟩ := h
    refine ⟨?_, ih (isWordChar c) s hs h2⟩
    by_cases hc : isDigitChar c = true
    · by_cases hp : p = true
      · simp [numTrig, hp]
      · have hpf : p = false := Bool.eq_false_iff.mpr hp
        have hb : boundaryOk ((a' ++ s).dropWhile isDigitChar) = false := by
          cases hbb : boundaryOk ((a' ++ s).dropWhile isDigitChar) with
          | false => rfl
          | true => rw [numTrig, hc, hpf, hbb] at h1; exact absurd h1 (by simp)
        rw [List.dropWhile_append] at hb
        cases hdw : a'.dropWhile isDigitChar with
        | nil =>
          exfalso
          rw [hdw] at hb
          simp only [List.isEmpty_nil, if_true] at hb
          cases s with
          | nil => simp [List.dropWhile_nil, boundaryOk] at hb
          | cons d s' =>
            have hdws : isWsChar d = true := by
              simp only [List.all_cons, Bool.and_eq_true] at hs
              exact hs.1
            rw [List.dropWhile_cons, if_neg (by rw [not_digit_of_ws hdws]; simp)] at hb
            simp only [boundaryOk, Bool.not_eq_false'] at hb
            rw [not_word_of_ws hdws] at hb
            exact absurd hb (by simp)
        | cons w t =>
          rw [hdw] at hb
          simp only [List.isEmpty_cons, if_false, Bool.false_eq_true] at hb
          rw [List.cons_append] at hb
          simp only [boundaryOk, Bool.not_eq_false'] at hb
          rw [numTrig, hdw]
          simp [boundaryOk, hb]
    · simp [numTrig, hc]

theorem trimTrail_decomp (l : List Char) :
    trimTrail l ++ (l.reverse.takeWhile isWsChar).reverse = l ∧
      ((l.reverse.takeWhile isWsChar).reverse).all isWsChar = true := by
  constructor
  · rw [trimTrail, ← List.reverse_append, List.takeWhile_append_dropWhile,
      List.reverse_reverse]
  · rw [List.all_eq_true]
    intro x hx
    exact List.mem_takeWhile_imp (List.mem_reverse.mp hx)

theorem noNum_trimBoth (l : List Char) (h : noNum false l = true) :
    noNum false (trimBoth l) = true := by
  rw [trimBoth]
  have h1 := noNum_dropWhile_ws l h
  obtain ⟨hd, hall⟩ := trimTrail_decomp (l.dropWhile isWsChar)
  rw [← hd] at h1
  exact noNum_append_ws _ false _ hall h1

theorem collapseF_digit_head : ∀ (l : List Char) (fuel : ℕ) (w : Char) (t : List Char),
    isWordChar w = true →
    l.dropWhile isDigitChar = w :: t →
    ∃ t', (collapseF fuel l).dropWhile isDigitChar = w :: t' := by
  intro l
  induction l with
  | nil =>
    intro fuel w t hw hdrop
    simp at hdrop
  | cons c rest ih =>
    intro fuel w t hw hdrop
    cases fuel with
    | zero => exact ⟨t, hdrop⟩
    | succ fuel =>
      by_cases hc : isDigitChar c = true
      · have hcw : isWsChar c = false := not_ws_of_word (isWordChar_of_digit hc)
        have hcw' : ¬ isWsChar c = true := by rw [hcw]; exact Bool.false_ne_true
        simp only [collapseF, if_neg hcw']
        rw [List.dropWhile_cons, if_pos hc] at hdrop
        rw [List.dropWhile_cons, if_pos hc]
        exact ih fuel w t hw hdrop
      · rw [List.dropWhile_cons, if_neg hc] at hdrop
        injection hdrop with h1 h2
        have hcw : isWsChar c = false := by rw [h1]; exact not_ws_of_word hw
        have hcw' : ¬ isWsChar c = true := by rw [hcw]; exact Bool.false_ne_true
        simp only [collapseF, if_neg hcw']
        refine ⟨collapseF fuel rest, ?_⟩
        rw [List.dropWhile_cons, if_neg hc, h1]

theorem noNum_collapseF : ∀ (fuel : ℕ) (p : Bool) (l : List Char),
    noNum p l = true → noNum p (collapseF fuel l) = true := by
  intro fuel
  induction fuel with
  | zero => intro p l h; cases l <;> exact h
  | succ fuel ih =>
    intro p l h
    cases l with
    | nil => rfl
    | cons c rest =>
      simp only [noNum, Bool.and_eq_true, Bool.not_eq_true'] at h
      obtain ⟨h1, h2⟩ := h
      by_cases hws : isWsChar c = true
      · simp only [collapseF, if_pos hws]
        simp only [noNum, Bool.and_eq_true, Bool.not_eq_true']
        constructor
        · exact numTrig_not_digit (by rfl)
        · have hsp : isWordChar ' ' = false := rfl
          rw [hsp]
          rw [not_word_of_ws hws] at h2
          exact ih false _ (noNum_dropWhile_ws rest h2)
      · simp only [collapseF, if_neg hws]
        simp only [noNum, Bool.and_eq_true, Bool.not_eq_true']
        refine ⟨?_, ih (isWordChar c) rest h2⟩
        by_cases hc : isDigitChar c = true
        · by_cases hp : p = true
          · simp [numTrig, hp]
          · have hpf : p = false := Bool.eq_false_iff.mpr hp
            have hb : boundaryOk (rest.dropWhile isDigitChar) = false := by
              cases hbb : boundaryOk (rest.dropWhile isDigitChar) with
              | false => rfl
              | true => rw [numTrig, hc, hpf, hbb] at h1; exact absurd h1 (by simp)
            cases hdw : rest.dropWhile isDigitChar with
            | nil => rw [hdw] at hb; simp [boundaryOk] at hb
            | cons w twl =>
              rw [hdw] at hb
              simp only [boundaryOk, Bool.not_eq_false'] at hb
              obtain ⟨t', ht'⟩ := collapseF_digit_head rest fuel w twl hb hdw
              rw [numTrig, ht']
              simp [boundaryOk, hb]
        · simp [numTrig, hc]

theorem dropWhile_digit_lowerStr : ∀ l : List Char,
    (lowerStr l).dropWhile isDigitChar = lowerStr (l.dropWhile isDigitChar) := by
  intro l
  induction l with
  | nil => rfl
  | cons c rest ih =>
    simp only [lowerStr, List.map_cons] at ih ⊢
    rw [List.dropWhile_cons, List.dropWhile_cons, isDigitChar_toLower]
    by_cases hc : isDigitChar c = true
    · rw [if_pos hc, if_pos hc]
      exact ih
    · rw [if_neg hc, if_neg hc, List.map_cons]

theorem boundaryOk_lowerStr : ∀ l : List Char, boundaryOk (lowerStr l) = boundaryOk l
  | [] => rfl
  | c :: rest => by
    simp only [lowerStr, List.map_cons, boundaryOk, isWordChar_toLower]

theorem numTrig_lowerStr (p : Bool) : ∀ l : List Char,
    numTrig p (lowerStr l) = numTrig p l
  | [] => rfl
  | c :: rest => by
    simp only [lowerStr, List.map_cons, numTrig, isDigitChar_toLower]
    have hrw : (List.map Char.toLower rest).dropWhile isDigitChar =
        lowerStr (rest.dropWhile isDigitChar) := dropWhile_digit_lowerStr rest
    rw [hrw, boundaryOk_lowerStr]

theorem noNum_lowerStr (p : Bool) : ∀ l : List Char, noNum p (lowerStr l) = noNum p l
  | [] => rfl
  | c :: rest => by
    have ih := noNum_lowerStr (isWordChar c) rest
    have ht : numTrig p (Char.toLower c :: List.map Char.toLower rest) =
        numTrig p (c :: rest) := numTrig_lowerStr p (c :: rest)
    simp only [lowerStr, List.map_cons] at ih ht ⊢
    simp only [noNum, ht, isWordChar_toLower, ih]

theorem noNum_fingerprint (x : List Char) : noNum false (fingerprint x) = true := by
  rw [fingerprint, noNum_lowerStr]
  apply noNum_trimBoth
  simp only [collapse]
  apply noNum_collapseF
  simp only [numScan]
  exact noNum_numScanF _ false _ (le_refl _)

theorem numScan_fingerprint (x : List Char) :
    numScan false (fingerprint x) = fingerprint x :=
  numScanF_of_noNum _ false _ (noNum_fingerprint x)

theorem headWs_collapseF (fuel : ℕ) (l : List Char) (h : headWs l = false) :
    headWs (collapseF fuel l) = false := by
  cases fuel with
  | zero =>
    cases l with
    | nil => rfl
    | cons c rest => exact h
  | succ fuel =>
    cases l with
    | nil => rfl
    | cons c rest =>
      have hc : ¬ isWsChar c = true := by
        simp only [headWs] at h
        rw [h]
        exact Bool.false_ne_true
      simp only [collapseF, if_neg hc]
      exact h

theorem wsNormal_collapseF : ∀ (fuel : ℕ) (l : List Char), l.length ≤ fuel →
    wsNormal (collapseF fuel l) = true := by
  intro fuel
  induction fuel with
  | zero =>
    intro l h
    have : l = [] := List.length_eq_zero.mp (Nat.le_zero.mp h)
    subst this
    rfl
  | succ fuel ih =>
    intro l h
    cases l with
    | nil => rfl
    | cons c rest =>
      simp only [List.length_cons] at h
      by_cases hws : isWsChar c = true
      · simp only [collapseF, if_pos hws]
        have hr : (rest.dropWhile isWsChar).length ≤ fuel := by
          have := length_dropWhile_le isWsChar rest
          omega
        have hhw : headWs (collapseF fuel (rest.dropWhile isWsChar)) = false :=
          headWs_collapseF fuel _ (headWs_dropWhile rest)
        have hwn : wsNormal (collapseF fuel (rest.dropWhile isWsChar)) = true := ih _ hr
        simp only [wsNormal, hhw, hwn]
        rfl
      · simp only [collapseF, if_neg hws]
        have h1 : (!isWsChar c) = true := by
          rw [Bool.eq_false_iff.mpr hws]
          rfl
        simp only [wsNormal, h1, Bool.true_or, Bool.true_and]
        exact ih rest (by omega)

theorem dropWhile_ws_of_headWs (l : List Char) (h : headWs l = false) :
    l.dropWhile isWsChar = l := by
  cases l with
  | nil => rfl
  | cons c rest =>
    simp only [headWs] at h
    rw [List.dropWhile_cons, if_neg (by rw [h]; exact Bool.false_ne_true)]

theorem collapseF_of_wsNormal : ∀ (fuel : ℕ) (l : List Char), wsNormal l = true →
    collapseF fuel l = l := by
  intro fuel
  induction fuel with
  | zero => intro l h; cases l <;> rfl
  | succ fuel ih =>
    intro l h
    cases l with
    | nil => rfl
    | cons c rest =>
      simp only [wsNormal, Bool.and_eq_true] at h
      obtain ⟨hfirst, hrest⟩ := h
      by_cases hws : isWsChar c = true
      · rw [hws] at hfirst
        simp only [Bool.not_true, Bool.false_or, Bool.and_eq_true, Bool.not_eq_true',
          decide_eq_true_eq] at hfirst
        obtain ⟨hsp, hhw⟩ := hfirst
        simp only [collapseF, if_pos hws]
        rw [dropWhile_ws_of_headWs rest hhw, ih rest hrest, hsp]
      · simp only [collapseF, if_neg hws]
        rw [ih rest hrest]

theorem wsNormal_dropWhile_ws : ∀ l : List Char, wsNormal l = true →
    wsNormal (l.dropWhile isWsChar) = true := by
  intro l
  induction l with
  | nil => intro h; exact h
  | cons c rest ih =>
    intro h
    simp only [wsNormal, Bool.and_eq_true] at h
    rw [List.dropWhile_cons]
    by_cases hws : isWsChar c = true
    · rw [if_pos hws]
      exact ih h.2
    · rw [if_neg hws]
      simp only [wsNormal, Bool.and_eq_true]
      exact h

theorem wsNormal_append : ∀ (a s : List Char), wsNormal (a ++ s) = true →
    wsNormal a = true := by
  intro a
  induction a with
  | nil => intro s h; rfl
  | cons c a' ih =>
    intro s h
    rw [List.cons_append] at h
    simp only [wsNormal, Bool.and_eq_true] at h ⊢
    obtain ⟨hfirst, hrest⟩ := h
    refine ⟨?_, ih s hrest⟩
    by_cases hws : isWsChar c = true
    · rw [hws] at hfirst ⊢
      simp only [Bool.not_true, Bool.false_or, Bool.and_eq_true, Bool.not_eq_true',
        decide_eq_true_eq] at hfirst
      simp only [Bool.not_true, Bool.false_or, Bool.and_eq_true, Bool.not_eq_true',
        decide_eq_true_eq]
      obtain ⟨hsp, hhw⟩ := hfirst
      refine ⟨hsp, ?_⟩
      cases a' with
      | nil => rfl
      | cons d a'' =>
        rw [List.cons_append] at hhw
        exact hhw
    · rw [Bool.eq_false_iff.mpr hws]
      rfl

theorem wsNormal_trimBoth (l : List Char) (h : wsNormal l = true) :
    wsNormal (trimBoth l) = true := by
  rw [trimBoth]
  obtain ⟨hd, _⟩ := trimTrail_decomp (l.dropWhile isWsChar)
  have h1 := wsNormal_dropWhile_ws l h
  rw [← hd] at h1
  exact wsNormal_append _ _ h1

theorem headWs_lowerStr (l : List Char) : headWs (lowerStr l) = headWs l := by
  cases l with
  | nil => rfl
  | cons c rest => simp only [lowerStr, List.map_cons, headWs, isWsChar_toLower]

theorem wsNormal_lowerStr : ∀ l : List Char, wsNormal (lowerStr l) = wsNormal l
  | [] => rfl
  | c :: rest => by
    have ih := wsNormal_lowerStr rest
    simp only [lowerStr, List.map_cons] at ih ⊢
    simp only [wsNormal, isWsChar_toLower, ih]
    have hsp : decide (Char.toLower c = ' ') = decide (c = ' ') :=
      decide_eq_decide.mpr (toLower_eq_space_iff c)
    rw [hsp]
    have hhw : headWs (List.map Char.toLower rest) = headWs rest := by
      have := headWs_lowerStr rest
      simpa [lowerStr] using this
    rw [hhw]

theorem wsNormal_fingerprint (x : List Char) : wsNormal (fingerprint x) = true := by
  rw [fingerprint, wsNormal_lowerStr]
  apply wsNormal_trimBoth
  simp only [collapse]
  exact wsNormal_collapseF _ _ (le_refl _)

theorem collapse_fingerprint (x : List Char) :
    collapse (fingerprint x) = fingerprint x := by
  simp only [collapse]
  exact collapseF_of_wsNormal _ _ (wsNormal_fingerprint x)

theorem headWs_trimTrail (l : List Char) (h : headWs l = false) :
    headWs (trimTrail l) = false := by
  obtain ⟨t, ht⟩ := trimTrail_isPrefix l
  cases ha : trimTrail l with
  | nil => rfl
  | cons c s =>
    rw [ha, List.cons_append] at ht
    rw [← ht] at h
    simp only [headWs] at h ⊢
    exact h

theorem headWs_fingerprint (x : List Char) : headWs (fingerprint x) = false := by
  rw [fingerprint, headWs_lowerStr, trimBoth]
  apply headWs_trimTrail
  exact headWs_dropWhile _

theorem lowerStr_reverse (l : List Char) : (lowerStr l).reverse = lowerStr l.reverse := by
  simp [lowerStr, List.map_reverse]

theorem trimBoth_reverse_headWs (l : List Char) :
    headWs ((trimBoth l).reverse) = false := by
  rw [trimBoth, trimTrail, List.reverse_reverse]
  exact headWs_dropWhile _

theorem trimTrail_of_revHead (l : List Char) (h : headWs l.reverse = false) :
    trimTrail l = l := by
  rw [trimTrail, dropWhile_ws_of_headWs _ h, List.reverse_reverse]

theorem trimBoth_fingerprint (x : List Char) :
    trimBoth (fingerprint x) = fingerprint x := by
  rw [trimBoth, dropWhile_ws_of_headWs _ (headWs_fingerprint x)]
  apply trimTrail_of_revHead
  rw [fingerprint, lowerStr_reverse, headWs_lowerStr]
  exact trimBoth_reverse_headWs _

theorem lowerStr_lowerStr (l : List Char) : lowerStr (lowerStr l) = lowerStr l := by
  simp only [lowerStr, List.map_map]
  apply List.map_congr_left
  intro a _
  simp only [Function.comp_apply]
  exact toLower_toLower a

theorem lowerStr_fingerprint (x : List Char) :
    lowerStr (fingerprint x) = fingerprint x := by
  rw [fingerprint]
  exact lowerStr_lowerStr _

/-- **C2** (counterexample): the spec claims `fingerprint` is idempotent for
every input, but on `"us/**/e mydb;"` the first pass's comment removal glues
the letters into `use mydb;`, which the second pass's USE-statement removal
deletes entirely: `fingerprint (fingerprint x) ≠ fingerprint x`. -/
theorem c2_counterexample :
    fingerprint (fingerprint "us/**/e mydb;".data) ≠
      fingerprint "us/**/e mydb;".data := by
  decide

/-- **C2** (amended): `fingerprint` is idempotent on every input whose first
pass's output is left fixed by the first two pipeline steps (USE-statement
removal and comment removal).  Those two steps are the only ones that can
splice distant characters together; the remaining four steps (string
replacement, number replacement, whitespace collapsing with trim, and
lowercasing) always reach a fixed point after one pass, as the proof shows
unconditionally. -/
theorem c2_fingerprint_idem_conditional (x : List Char)
    (hu : useScan (fingerprint x) = fingerprint x)
    (hc : commentScan (fingerprint x) = fingerprint x) :
    fingerprint (fingerprint x) = fingerprint x := by
  conv_lhs => rw [fingerprint]
  rw [hu, hc, strScan_fingerprint, numScan_fingerprint, collapse_fingerprint,
    trimBoth_fingerprint, lowerStr_fingerprint]

/-- Witness for the amended C2 theorem at the concrete input `"SELECT 1"`,
whose fingerprint `"select ?"` contains no USE statement and no comment. -/
theorem c2_witness :
    useScan (fingerprint "SELECT 1".data) = fingerprint "SELECT 1".data ∧
    commentScan (fingerprint "SELECT 1".data) = fingerprint "SELECT 1".data ∧
    fingerprint (fingerprint "SELECT 1".data) = fingerprint "SELECT 1".data :=
  ⟨by decide, by decide,
    c2_fingerprint_idem_conditional "SELECT 1".data (by decide) (by decide)⟩
